import Mathlib

/-!
# BillSystem chaincode: the bill ledger of `chaincode/billcc.go`

A shallow embedding of the functions of `billcc.go` (`pubBill`, `getBill`,
`issue`, `queryMyBills`, `queryBillByNo`, `queryMyWaitBills`) together with the
two libraries they call: Go's `encoding/json` and the Hyperledger Fabric
chaincode stub.

Modelling decisions, all visible in the definitions below.

* Byte strings (`Bytes`) are kept up to JSON parsing: a byte string is the nil
  slice, a byte string that is not a JSON text, or the text of a JSON value.
  The lexical layer of `encoding/json` (quoting, white space, number syntax)
  is not modelled; its structural behaviour is: `json.Unmarshal` into a
  struct variable overwrites only the fields named by the object, leaves the
  variable untouched on a syntax error, and keeps decoding after a type error.
* Strings are sequences of Unicode code points, so they are always valid UTF-8,
  and the byte order of keys is the code point order.
* A nil slice and an empty slice of history items are both the empty list.
  When `json.Unmarshal` decodes an array over a slice that already has
  elements, the elements are decoded over the old ones index by index; slice
  capacity and the sharing of backing arrays are not represented.
* The stub is an ordered key-value state plus the log of all writes, which
  take effect at once. Every call that talks to the peer can report an error;
  which ones do is part of the stub (`Faults`).
* A Go run-time panic (nil dereference, index out of range) is an explicit
  outcome of the query functions.
* `Bill`, `HistoryItem` and the package constants are declared in another file
  of the package: the types carry the fields the code uses, and the constants
  are parameters (`Consts`).
* `SplitCompositeKey` follows the shim: it has no error case, and panics on a
  key without components.
-/

namespace BillCC

/-! ## encoding/json -/

/-- A JSON value. -/
inductive Json where
  | null
  | bool (b : Bool)
  | num (n : Int)
  | str (s : String)
  | arr (xs : List Json)
  | obj (kvs : List (String × Json))

/-- Byte strings up to JSON parsing: the nil slice, the `n`-th byte string that
is not a JSON text, or the text of the JSON value `j`. -/
inductive Bytes where
  | nil
  | notJson (n : Nat)
  | text (j : Json)

mutual
/-- Modelled from the spec: the `Bill` struct, declared in another file of
the package; these are the fields of the spec's data model under the names the
code uses (id, current holder, pending endorsee, state, history). -/
inductive Bill where
  | mk (BillInfoID HoldrCmID WaitEndorseCmID State : String) (History : List HistoryItem)
/-- Modelled from the spec: the `HistoryItem` struct, declared in another file
of the package: a transaction id and the bill snapshot of that version. -/
inductive HistoryItem where
  | mk (TxId : String) (Bill : Bill)
end

namespace Bill

/-- Field `BillInfoID`. -/
def BillInfoID : Bill → String
  | .mk i _ _ _ _ => i

/-- Field `HoldrCmID`. -/
def HoldrCmID : Bill → String
  | .mk _ h _ _ _ => h

/-- Field `WaitEndorseCmID`. -/
def WaitEndorseCmID : Bill → String
  | .mk _ _ w _ _ => w

/-- Field `State`. -/
def State : Bill → String
  | .mk _ _ _ s _ => s

/-- Field `History`. -/
def History : Bill → List HistoryItem
  | .mk _ _ _ _ hist => hist

/-- The assignment `bill.State = s`. -/
def setState : Bill → String → Bill
  | .mk i h w _ hist, s => .mk i h w s hist

/-- The assignment `bill.History = items`. -/
def setHistory : Bill → List HistoryItem → Bill
  | .mk i h w s _, items => .mk i h w s items

/-- The zero value of the struct, `var bill Bill`. -/
def zero : Bill := .mk "" "" "" "" []

end Bill

namespace HistoryItem

/-- Field `TxId`. -/
def TxId : HistoryItem → String
  | .mk t _ => t

/-- Field `Bill`. -/
def Bill : HistoryItem → BillCC.Bill
  | .mk _ b => b

/-- The zero value of the struct. -/
def zero : HistoryItem := .mk "" BillCC.Bill.zero

end HistoryItem

/-- Case folding of `encoding/json` for object keys: ASCII letters fold to upper
case, and the two non-ASCII runes that fold to an ASCII letter (long s, Kelvin
sign) fold with it. -/
def foldRune (c : Char) : Char :=
  if 97 ≤ c.toNat ∧ c.toNat ≤ 122 then Char.ofNat (c.toNat - 32)
  else if c.toNat = 0x17F then 'S'
  else if c.toNat = 0x212A then 'K'
  else c

/-- An object key selects the struct field `name` when it equals the name, or
equals it up to case folding. -/
def fieldMatches (key name : String) : Bool :=
  key.data.map foldRune == name.data.map foldRune

/-- Decoding a JSON value into a `string` field: a string is stored, `null`
leaves the field alone, anything else is a type error that leaves it alone. -/
def decodeString : Json → String → String × Bool
  | .str s, _ => (s, true)
  | .null, old => (old, true)
  | _, old => (old, false)

mutual
/-- Decoding a JSON value over a `Bill` variable. The flag is `err == nil`. -/
def decodeBill : Json → Bill → Bill × Bool
  | .obj kvs, b => decodeBillFields kvs b
  | .null, b => (b, true)
  | _, b => (b, false)
/-- The members of an object, in order, over a `Bill` variable. -/
def decodeBillFields : List (String × Json) → Bill → Bill × Bool
  | [], b => (b, true)
  | (k, v) :: rest, .mk i h w s hist =>
    if fieldMatches k "BillInfoID" then
      let r := decodeString v i
      let t := decodeBillFields rest (.mk r.1 h w s hist)
      (t.1, r.2 && t.2)
    else if fieldMatches k "HoldrCmID" then
      let r := decodeString v h
      let t := decodeBillFields rest (.mk i r.1 w s hist)
      (t.1, r.2 && t.2)
    else if fieldMatches k "WaitEndorseCmID" then
      let r := decodeString v w
      let t := decodeBillFields rest (.mk i h r.1 s hist)
      (t.1, r.2 && t.2)
    else if fieldMatches k "State" then
      let r := decodeString v s
      let t := decodeBillFields rest (.mk i h w r.1 hist)
      (t.1, r.2 && t.2)
    else if fieldMatches k "History" then
      let r := decodeHistory v hist
      let t := decodeBillFields rest (.mk i h w s r.1)
      (t.1, r.2 && t.2)
    else decodeBillFields rest (.mk i h w s hist)
/-- Decoding a JSON value over a `[]HistoryItem` field. -/
def decodeHistory : Json → List HistoryItem → List HistoryItem × Bool
  | .arr xs, old => decodeItems xs old
  | .null, _ => ([], true)
  | _, old => (old, false)
/-- The elements of an array, each over the old element at its index (over a
zero element past the old length); the result has the length of the array. -/
def decodeItems : List Json → List HistoryItem → List HistoryItem × Bool
  | [], _ => ([], true)
  | x :: xs, old =>
    let r := decodeItem x (old.headD HistoryItem.zero)
    let t := decodeItems xs old.tail
    (r.1 :: t.1, r.2 && t.2)
/-- Decoding a JSON value over a `HistoryItem` variable. -/
def decodeItem : Json → HistoryItem → HistoryItem × Bool
  | .obj kvs, it => decodeItemFields kvs it
  | .null, it => (it, true)
  | _, it => (it, false)
/-- The members of an object, in order, over a `HistoryItem` variable. -/
def decodeItemFields : List (String × Json) → HistoryItem → HistoryItem × Bool
  | [], it => (it, true)
  | (k, v) :: rest, .mk t b =>
    if fieldMatches k "TxId" then
      let r := decodeString v t
      let u := decodeItemFields rest (.mk r.1 b)
      (u.1, r.2 && u.2)
    else if fieldMatches k "Bill" then
      let r := decodeBill v b
      let u := decodeItemFields rest (.mk t r.1)
      (u.1, r.2 && u.2)
    else decodeItemFields rest (.mk t b)
end

mutual
/-- The JSON object `json.Marshal` writes for a `Bill`: every field, in
declaration order. -/
def encodeBill : Bill → Json
  | .mk i h w s hist =>
    .obj [("BillInfoID", .str i), ("HoldrCmID", .str h), ("WaitEndorseCmID", .str w),
      ("State", .str s), ("History", encodeHistory hist)]
/-- A slice of history items: `null` for the empty (nil) slice, else an array. -/
def encodeHistory : List HistoryItem → Json
  | [] => .null
  | x :: xs => .arr (encodeItem x :: encodeItems xs)
/-- The elements of a slice of history items. -/
def encodeItems : List HistoryItem → List Json
  | [] => []
  | x :: xs => encodeItem x :: encodeItems xs
/-- The JSON object `json.Marshal` writes for a `HistoryItem`. -/
def encodeItem : HistoryItem → Json
  | .mk t b => .obj [("TxId", .str t), ("Bill", encodeBill b)]
end

/-- The JSON value `json.Marshal` writes for a `[]Bill`: `null` for the nil
slice, else the array of the bills. -/
def encodeBills : List Bill → Json
  | [] => .null
  | bs => .arr (bs.map encodeBill)

/-- The call `json.Unmarshal(data, &bill)`: the variable after the call and
whether the error is nil. Nil and non-JSON data are syntax errors, which leave
the variable as it was. -/
def jsonUnmarshal (data : Bytes) (bill : Bill) : Bill × Bool :=
  match data with
  | .text j => decodeBill j bill
  | _ => (bill, false)

/-- The call `json.Marshal(bill)`; it has no failing case for this type. -/
def jsonMarshal (bill : Bill) : Except String Bytes :=
  .ok (.text (encodeBill bill))

/-- The call `json.Marshal(bills)` for a `[]Bill`. -/
def jsonMarshalBills (bills : List Bill) : Except String Bytes :=
  .ok (.text (encodeBills bills))

/-! ## The chaincode stub -/

/-- One entry of the world state, `queryresult.KV`. -/
structure KV where
  Key : String
  Value : Bytes

/-- One version of a key, `queryresult.KeyModification`: the transaction that
wrote it and the value written (nil for a delete). -/
structure KeyModification where
  TxId : String
  Value : Bytes

/-- The ledger: the world state, ordered by key, and the log of all writes,
oldest first. -/
structure Ledger where
  State : List KV
  Log : List (String × KeyModification)

/-- The calls to the peer that report an error during one invocation: the keys
on which `GetState` and `PutState` fail, whether opening a range scan or a
history query fails, and the positions at which `Next` fails on each of the
two iterators. -/
structure Faults where
  getState : List String
  putState : List String
  rangeQuery : Bool
  rangeNext : List Nat
  historyQuery : Bool
  historyNext : List Nat

/-- A peer that answers every call. -/
def Faults.none : Faults := ⟨[], [], false, [], false, []⟩

/-- The stub of one invocation, `shim.ChaincodeStubInterface`. -/
structure Stub where
  TxID : String
  ledger : Ledger
  faults : Faults

/-- The rune `minUnicodeRuneValue`, U+0000. -/
def minUnicodeRuneValue : Char := Char.ofNat 0

/-- The rune `maxUnicodeRuneValue`, U+10FFFF. -/
def maxUnicodeRuneValue : Char := Char.ofNat 0x10FFFF

/-- The order of keys in the state database: byte-wise on UTF-8, which is
code point by code point. -/
def keyLt : List Char → List Char → Bool
  | _, [] => false
  | [], _ :: _ => true
  | a :: as, b :: bs => if a = b then keyLt as bs else decide (a.toNat < b.toNat)

/-- Reading a key of the world state; an absent key reads as the nil slice. -/
def getKV (key : String) : List KV → Bytes
  | [] => .nil
  | kv :: rest => if kv.Key = key then kv.Value else getKV key rest

/-- Writing a key of the world state, kept in key order. -/
def putKV (key : String) (value : Bytes) : List KV → List KV
  | [] => [⟨key, value⟩]
  | kv :: rest =>
    if key = kv.Key then ⟨key, value⟩ :: rest
    else if keyLt key.data kv.Key.data then ⟨key, value⟩ :: kv :: rest
    else kv :: putKV key value rest

/-- The results of the successive `Next` calls of an iterator over `xs`, the
call at a failing position answering an error. -/
def nextResults {α : Type} (failing : List Nat) : Nat → List α → List (Except String α)
  | _, [] => []
  | n, x :: xs =>
    (if n ∈ failing then .error "next failed" else .ok x) :: nextResults failing (n + 1) xs

namespace Stub

/-- The call `stub.GetState(key)`. -/
def GetState (stub : Stub) (key : String) : Except String Bytes :=
  if key ∈ stub.faults.getState then .error "GetState failed"
  else .ok (getKV key stub.ledger.State)

/-- The call `stub.PutState(key, value)`: the stub after the write, which is
also logged as a version of the key under the transaction of the stub. -/
def PutState (stub : Stub) (key : String) (value : Bytes) : Except String Stub :=
  if key = "" then .error "key must not be an empty string"
  else if key ∈ stub.faults.putState then .error "PutState failed"
  else .ok { stub with ledger :=
    { State := putKV key value stub.ledger.State
      Log := stub.ledger.Log ++ [(key, ⟨stub.TxID, value⟩)] } }

/-- The check `validateCompositeKeyAttribute`: neither U+0000 nor U+10FFFF. -/
def validateCompositeKeyAttribute (str : String) : Bool :=
  str.data.all (fun r => r ≠ minUnicodeRuneValue ∧ r ≠ maxUnicodeRuneValue)

/-- The loop of `createCompositeKey` over the attributes. -/
def appendAttributes (ck : String) : List String → Except String String
  | [] => .ok ck
  | att :: rest =>
    if validateCompositeKeyAttribute att then
      appendAttributes (ck ++ att ++ String.singleton minUnicodeRuneValue) rest
    else .error "invalid composite key attribute"

/-- The call `stub.CreateCompositeKey(objectType, attributes)`: the namespace
rune U+0000, the object type and every attribute, each followed by U+0000. -/
def CreateCompositeKey (objectType : String) (attributes : List String) :
    Except String String :=
  if validateCompositeKeyAttribute objectType then
    appendAttributes (String.singleton minUnicodeRuneValue ++ objectType
      ++ String.singleton minUnicodeRuneValue) attributes
  else .error "invalid composite key object type"

/-- The loop of `splitCompositeKey`: the components closed by a U+0000; `cur`
is the component being read, last rune first. -/
def splitComponents (cur : List Char) : List Char → List String
  | [] => []
  | r :: rest =>
    if r = minUnicodeRuneValue then String.mk cur.reverse :: splitComponents [] rest
    else splitComponents (r :: cur) rest

/-- What `stub.SplitCompositeKey` does: it answers the object type and the
attributes, an error, or panics. -/
inductive SplitResult where
  | ok (objectType : String) (attributes : List String)
  | err (msg : String)
  | panic

/-- The call `stub.SplitCompositeKey(key)`: the components after the namespace
rune; the first is the object type. The shim has no error case; it indexes
`components[0]`, which panics when there is no component. -/
def SplitCompositeKey (compositeKey : String) : SplitResult :=
  match splitComponents [] compositeKey.data.tail with
  | [] => .panic
  | objectType :: attributes => .ok objectType attributes

/-- The keys of a range scan: at least `startKey` and below `endKey`. -/
def inRange (startKey endKey : String) (kv : KV) : Bool :=
  !keyLt kv.Key.data startKey.data && keyLt kv.Key.data endKey.data

/-- The call `stub.GetStateByPartialCompositeKey(objectType, attributes)`: the
scan of the range from the partial key to the partial key followed by
U+10FFFF, as the results of the iterator it returns. -/
def GetStateByPartialCompositeKey (stub : Stub) (objectType : String)
    (attributes : List String) : Except String (List (Except String KV)) :=
  match CreateCompositeKey objectType attributes with
  | .error e => .error e
  | .ok partialCompositeKey =>
    if stub.faults.rangeQuery then .error "range query failed"
    else .ok (nextResults stub.faults.rangeNext 0
      (stub.ledger.State.filter
        (inRange partialCompositeKey
          (partialCompositeKey ++ String.singleton maxUnicodeRuneValue))))

/-- The versions of `key` in the log, oldest first. -/
def versions (key : String) (log : List (String × KeyModification)) : List KeyModification :=
  (log.filter (fun e => e.1 = key)).map Prod.snd

/-- The call `stub.GetHistoryForKey(key)`, as the results of the iterator it
returns. -/
def GetHistoryForKey (stub : Stub) (key : String) :
    Except String (List (Except String KeyModification)) :=
  if stub.faults.historyQuery then .error "history query failed"
  else .ok (nextResults stub.faults.historyNext 0 (versions key stub.ledger.Log))

end Stub

/-! ## The chaincode -/

/-- The package constants, declared in another file of the package. -/
structure Consts where
  Bill_Prefix : String
  IndexName : String
  BillInfo_State_NewPublish : String
  BillInfo_State_EndorseWaitSign : String

/-- A `peer.Response`: `shim.Error(msg)` or `shim.Success(payload)`. -/
inductive Response where
  | Error (msg : String)
  | Success (payload : Bytes)

/-- How an invocation ends: it returns a response, or the goroutine panics. -/
inductive Outcome where
  | returned (r : Response)
  | panic (why : String)

/-- The value `[]byte{0x00}` stored under an index key. -/
def indexMarker : Bytes := .notJson 0

/-- The payload of a successful `issue`, the bytes of a fixed message. -/
def issueSuccessPayload : Bytes := .notJson 1

/-- Function `pubBill` (billcc.go 10-23): the bytes, the flag, and the stub
after the call. -/
def pubBill (c : Consts) (stub : Stub) (bill : Bill) : Bytes × Bool × Stub :=
  match jsonMarshal bill with
  | .error _ => (.nil, false, stub)
  | .ok b =>
    match stub.PutState (c.Bill_Prefix ++ bill.BillInfoID) b with
    | .error _ => (.nil, false, stub)
    | .ok stub1 => (b, true, stub1)

/-- Function `getBill` (billcc.go 26-41). -/
def getBill (c : Consts) (stub : Stub) (billNo : String) : Bill × Bool :=
  match stub.GetState (c.Bill_Prefix ++ billNo) with
  | .error _ => (Bill.zero, false)
  | .ok b =>
    let r := jsonUnmarshal b Bill.zero
    if r.2 then (r.1, true) else (r.1, false)

/-- Function `issue` (billcc.go 45-79): the response and the stub after the
call. The argument strings are given by their byte content. -/
def issue (c : Consts) (stub : Stub) (args : List Bytes) : Response × Stub :=
  match args with
  | [arg] =>
    let r := jsonUnmarshal arg Bill.zero
    if !r.2 then (.Error "反序列票据对象时发生错误", stub)
    else if (getBill c stub r.1.BillInfoID).2 then (.Error "发布的票据已存在", stub)
    else
      let bill := r.1.setState c.BillInfo_State_NewPublish
      match pubBill c stub bill with
      | (_, false, stub1) => (.Error "保存票据信息时发生错误", stub1)
      | (_, true, stub1) =>
        match Stub.CreateCompositeKey c.IndexName [bill.HoldrCmID, bill.BillInfoID] with
        | .error _ => (.Error "创建复合键时发生错误", stub1)
        | .ok holderCmIDBillInfoIDIndexKey =>
          match stub1.PutState holderCmIDBillInfoIDIndexKey indexMarker with
          | .error _ => (.Error "保存复合键时发生错误", stub1)
          | .ok stub2 => (.Success issueSuccessPayload, stub2)
  | _ => (.Error "发布票据失败, 指定的票据内容错误", stub)

/-- The loop of `queryMyBills` (billcc.go 95-107) over the results of the
iterator: the bills collected, or the way the function leaves early. The
error of `Next` is discarded, so a failed `Next` leaves `kv` nil and reading
`kv.Key` panics; so does `compositeKey[1]` on fewer than two attributes. -/
def queryMyBillsLoop (c : Consts) (stub : Stub) :
    List (Except String KV) → List Bill → Except Outcome (List Bill)
  | [], bills => .ok bills
  | .error _ :: _, _ => .error (.panic "nil pointer dereference")
  | .ok kv :: rest, bills =>
    match Stub.SplitCompositeKey kv.Key with
    | .panic => .error (.panic "index out of range")
    | .err _ => .error (.returned (.Error "分割指定的复合键时发生错误"))
    | .ok _ compositeKey =>
      match compositeKey.tail.head? with
      | none => .error (.panic "index out of range")
      | some billNo =>
        match getBill c stub billNo with
        | (_, false) => .error (.returned (.Error "根据指定的票据号码查询票据信息时发生错误"))
        | (bill, true) => queryMyBillsLoop c stub rest (bills ++ [bill])

/-- Function `queryMyBills` (billcc.go 83-116). -/
def queryMyBills (c : Consts) (stub : Stub) (args : List String) : Outcome :=
  match args with
  | [holderCmID] =>
    match stub.GetStateByPartialCompositeKey c.IndexName [holderCmID] with
    | .error _ => .returned (.Error "根据指定持票人证件号码查询信息时发生错误 ")
    | .ok iterator =>
      match queryMyBillsLoop c stub iterator [] with
      | .error out => out
      | .ok bills =>
        match jsonMarshalBills bills with
        | .error _ => .returned (.Error "序列化票据时发生错误")
        | .ok bs => .returned (.Success bs)
  | _ => .returned (.Error "必须且只能指定当前用户的证件号码")

/-- The loop of `queryBillByNo` (billcc.go 138-155): `hisBill` is the one
variable every version is decoded into, the decode error being dropped. -/
def queryBillByNoLoop :
    List (Except String KeyModification) → Bill → List HistoryItem →
      Except Response (List HistoryItem)
  | [], _, bills => .ok bills
  | .error _ :: _, _, _ => .error (.Error "获取历史流转信息时发生错误")
  | .ok hisData :: rest, hisBill, bills =>
    let hisBill1 := (jsonUnmarshal hisData.Value hisBill).1
    let historyItem : HistoryItem :=
      match hisData.Value with
      | .nil => .mk hisData.TxId Bill.zero
      | _ => .mk hisData.TxId hisBill1
    queryBillByNoLoop rest hisBill1 (bills ++ [historyItem])

/-- Function `queryBillByNo` (billcc.go 120-165). -/
def queryBillByNo (c : Consts) (stub : Stub) (args : List String) : Outcome :=
  match args with
  | [billNo] =>
    match getBill c stub billNo with
    | (_, false) => .returned (.Error "根据指定的票据号码查询对应信息时失败")
    | (bill, true) =>
      match stub.GetHistoryForKey (c.Bill_Prefix ++ bill.BillInfoID) with
      | .error _ => .returned (.Error "根据指定的票据号码查询历史流转信息时失败")
      | .ok iterator =>
        match queryBillByNoLoop iterator Bill.zero [] with
        | .error resp => .returned resp
        | .ok bills =>
          match jsonMarshal (bill.setHistory bills) with
          | .error _ => .returned (.Error "序列化票据时发生错误")
          | .ok b => .returned (.Success b)
  | _ => .returned (.Error "必须且只能指定要查询的票据号码")

/-- The loop of `queryMyWaitBills` (billcc.go 181-196); it differs from the
loop of `queryMyBills` by the filter on state and pending endorsee. -/
def queryMyWaitBillsLoop (c : Consts) (stub : Stub) (waitEndorseCmID : String) :
    List (Except String KV) → List Bill → Except Outcome (List Bill)
  | [], bills => .ok bills
  | .error _ :: _, _ => .error (.panic "nil pointer dereference")
  | .ok kv :: rest, bills =>
    match Stub.SplitCompositeKey kv.Key with
    | .panic => .error (.panic "index out of range")
    | .err _ => .error (.returned (.Error "分割复合key时发生错误"))
    | .ok _ composite =>
      match composite.tail.head? with
      | none => .error (.panic "index out of range")
      | some billNo =>
        match getBill c stub billNo with
        | (_, false) => .error (.returned (.Error "根据指定的票据号码查询票据信息时发生错误"))
        | (bill, true) =>
          if bill.State = c.BillInfo_State_EndorseWaitSign ∧ bill.WaitEndorseCmID = waitEndorseCmID
          then queryMyWaitBillsLoop c stub waitEndorseCmID rest (bills ++ [bill])
          else queryMyWaitBillsLoop c stub waitEndorseCmID rest bills

/-- Function `queryMyWaitBills` (billcc.go 169-204). -/
def queryMyWaitBills (c : Consts) (stub : Stub) (args : List String) : Outcome :=
  match args with
  | [waitEndorseCmID] =>
    match stub.GetStateByPartialCompositeKey c.IndexName [waitEndorseCmID] with
    | .error _ => .returned (.Error "根据指定待背书人证件号码查询复合键时发生错误")
    | .ok iterator =>
      match queryMyWaitBillsLoop c stub waitEndorseCmID iterator [] with
      | .error out => out
      | .ok bills =>
        match jsonMarshalBills bills with
        | .error _ => .returned (.Error "序列化待背书票据时发生错误")
        | .ok b => .returned (.Success b)
  | _ => .returned (.Error "必须且只能指定待背书人证件号码")

/-! ## Vocabulary of the statements and example data -/

/-- The keys of the state are strictly increasing. -/
def Sorted (st : List KV) : Prop :=
  st.Pairwise (fun a b => keyLt a.Key.data b.Key.data = true)

/-- The runes of the composite key of an object type and two attributes. -/
def indexKeyData (objectType a b : String) : List Char :=
  minUnicodeRuneValue :: (objectType.data ++ minUnicodeRuneValue ::
    (a.data ++ minUnicodeRuneValue :: (b.data ++ [minUnicodeRuneValue])))

/-- The runes of the partial composite key of an object type and one attribute. -/
def partialKeyData (objectType a : String) : List Char :=
  minUnicodeRuneValue :: (objectType.data ++ minUnicodeRuneValue ::
    (a.data ++ [minUnicodeRuneValue]))

/-- The ledger after a successful `PutState`. -/
def Ledger.put (l : Ledger) (txid key : String) (value : Bytes) : Ledger :=
  { State := putKV key value l.State, Log := l.Log ++ [(key, ⟨txid, value⟩)] }

/-- The bill `issue` stores for an argument: the decoded argument in state
`NewPublish`. -/
def issuedBill (c : Consts) (arg : Bytes) : Bill :=
  (jsonUnmarshal arg Bill.zero).1.setState c.BillInfo_State_NewPublish

/-- The ledger before any invocation. -/
def Ledger.empty : Ledger := ⟨[], []⟩

/-- The ids issued by one invocation of `issue`: the id of the argument when
the response is a success. -/
def issuedIds (c : Consts) (stub : Stub) (args : List Bytes) : List String :=
  match issue c stub args, args with
  | (.Success _, _), [arg] => [(issuedBill c arg).BillInfoID]
  | _, _ => []

/-- The ledgers reachable from the empty ledger by invocations of `issue`,
with the ids issued with success on the way. Every invocation has its own
transaction id, arguments and faults, the faults being among the allowed. -/
inductive Reach (c : Consts) (allowed : Faults → Prop) : Ledger → List String → Prop where
  | empty : Reach c allowed Ledger.empty []
  | step (stub : Stub) (args : List Bytes) (ids : List String) :
      Reach c allowed stub.ledger ids → allowed stub.faults →
      Reach c allowed (issue c stub args).2.ledger (ids ++ issuedIds c stub args)

/-- No restriction on the faults of an invocation. -/
def anyFaults (_ : Faults) : Prop := True

/-- The assumption on the constant `Bill_Prefix`: it starts with a rune other
than U+0000, so that primary keys lie outside the composite key namespace. -/
def Consts.WellFormed (c : Consts) : Prop :=
  ∃ r rs, c.Bill_Prefix.data = r :: rs ∧ r ≠ minUnicodeRuneValue

/-- The entry is a primary record: the bill of its key, in state `NewPublish`. -/
def IsPrimary (c : Consts) (kv : KV) : Prop :=
  ∃ b : Bill, kv.Key = c.Bill_Prefix ++ b.BillInfoID ∧ kv.Value = .text (encodeBill b) ∧
    b.State = c.BillInfo_State_NewPublish

/-- The entry is an index entry of a holder and a bill id, and the state has
the primary record of that id. -/
def IsIndex (c : Consts) (st : List KV) (kv : KV) : Prop :=
  ∃ h id, Stub.CreateCompositeKey c.IndexName [h, id] = .ok kv.Key ∧ kv.Value = indexMarker ∧
    ∃ b : Bill, b.BillInfoID = id ∧ getKV (c.Bill_Prefix ++ id) st = .text (encodeBill b)

/-- The invariant of the world state under `issue`. -/
structure Inv (c : Consts) (st : List KV) : Prop where
  sorted : Sorted st
  entries : ∀ kv ∈ st, IsPrimary c kv ∨ IsIndex c st kv

/-- Constants for the examples. -/
def exampleConsts : Consts := ⟨"Bill_", "holder~bill", "NewPublish", "EndorseWaitSign"⟩

/-- The payload of bill B1 held by H1. -/
def payloadB1 : Bytes :=
  .text (.obj [("BillInfoID", .str "B1"), ("HoldrCmID", .str "H1")])

/-- The stub of a first invocation on the empty ledger, without faults. -/
def stubEmpty : Stub := ⟨"tx1", Ledger.empty, Faults.none⟩

/-- The stub of a second invocation, after B1 was issued. -/
def stubAfterB1 : Stub := ⟨"tx2", (issue exampleConsts stubEmpty [payloadB1]).2.ledger, Faults.none⟩

/-- A payload that carries a history item of its own. -/
def payloadWithHistory : Bytes :=
  .text (.obj [("BillInfoID", .str "B9"), ("HoldrCmID", .str "H1"),
    ("History", .arr [.obj [("TxId", .str "forged")]])])

/-- A stub whose record under the key of B1 carries the id B2. -/
def stubMismatch : Stub :=
  ⟨"tx2",
    ⟨[⟨"Bill_B1", .text (encodeBill (.mk "B2" "H1" "" "NewPublish" []))⟩],
     [("Bill_B1", ⟨"tx1", .text (encodeBill (.mk "B2" "H1" "" "NewPublish" []))⟩)]⟩,
    Faults.none⟩

/-- The stub after B1 was issued, with the first `Next` of a range scan
failing. -/
def stubRangeNextFails : Stub :=
  ⟨"tx2", stubAfterB1.ledger, { Faults.none with rangeNext := [0] }⟩

/-- The stub after B1 was issued, with the first `Next` of a history query
failing. -/
def stubHistoryNextFails : Stub :=
  ⟨"tx2", stubAfterB1.ledger, { Faults.none with historyNext := [0] }⟩

/-- A complete record of bill B1: held by H1, waiting for the endorsement
of E1. -/
def recordB1 : Bytes :=
  .text (encodeBill (.mk "B1" "H1" "E1" "EndorseWaitSign" []))

/-- A complete record of bill B1 with another pending endorsee and state. -/
def recordB1other : Bytes :=
  .text (encodeBill (.mk "B1" "H1" "E7" "NewPublish" []))

/-- A later version of bill B1 that names the id and the holder only. -/
def recordB1partial : Bytes :=
  .text (.obj [("BillInfoID", .str "B1"), ("HoldrCmID", .str "H2")])

/-- A stub whose key of B1 has two versions: a complete record, then the
partial one, which is the current value. -/
def stubTwoVersions : Stub :=
  ⟨"tx3", ⟨[⟨"Bill_B1", recordB1partial⟩],
    [("Bill_B1", ⟨"tx1", recordB1⟩), ("Bill_B1", ⟨"tx2", recordB1partial⟩)]⟩, Faults.none⟩

/-- The same stub with another first version of the key of B1. -/
def stubTwoVersionsOther : Stub :=
  ⟨"tx3", ⟨[⟨"Bill_B1", recordB1partial⟩],
    [("Bill_B1", ⟨"tx1", recordB1other⟩), ("Bill_B1", ⟨"tx2", recordB1partial⟩)]⟩, Faults.none⟩

/-- A stub whose key of B1 has three versions: a record, a delete, and the
record again, which is the current value. -/
def stubTombstone : Stub :=
  ⟨"tx4",
    ⟨[⟨"Bill_B1", .text (encodeBill (.mk "B1" "H1" "" "NewPublish" []))⟩],
     [("Bill_B1", ⟨"tx1", .text (encodeBill (.mk "B1" "H1" "" "NewPublish" []))⟩),
      ("Bill_B1", ⟨"tx2", .nil⟩),
      ("Bill_B1", ⟨"tx3", .text (encodeBill (.mk "B1" "H1" "" "NewPublish" []))⟩)]⟩,
    Faults.none⟩

/-- The bill a scan loop resolves for an index entry: the lookup of the second
attribute of its key. -/
def resolve (c : Consts) (stub : Stub) (kv : KV) : Bill :=
  match Stub.SplitCompositeKey kv.Key with
  | .ok _ attributes => (getBill c stub (attributes.tail.head?.getD "")).1
  | _ => Bill.zero

theorem fieldMatches_names :
    fieldMatches "BillInfoID" "BillInfoID" = true ∧
    fieldMatches "HoldrCmID" "BillInfoID" = false ∧
    fieldMatches "HoldrCmID" "HoldrCmID" = true ∧
    fieldMatches "WaitEndorseCmID" "BillInfoID" = false ∧
    fieldMatches "WaitEndorseCmID" "HoldrCmID" = false ∧
    fieldMatches "WaitEndorseCmID" "WaitEndorseCmID" = true ∧
    fieldMatches "State" "BillInfoID" = false ∧
    fieldMatches "State" "HoldrCmID" = false ∧
    fieldMatches "State" "WaitEndorseCmID" = false ∧
    fieldMatches "State" "State" = true ∧
    fieldMatches "History" "BillInfoID" = false ∧
    fieldMatches "History" "HoldrCmID" = false ∧
    fieldMatches "History" "WaitEndorseCmID" = false ∧
    fieldMatches "History" "State" = false ∧
    fieldMatches "History" "History" = true ∧
    fieldMatches "TxId" "TxId" = true ∧
    fieldMatches "Bill" "TxId" = false ∧
    fieldMatches "Bill" "Bill" = true := by decide

mutual
theorem decodeBill_encodeBill : ∀ (b old : Bill), decodeBill (encodeBill b) old = (b, true)
  | .mk i h w s hist, .mk i0 h0 w0 s0 hist0 => by
    obtain ⟨h1, h2, h3, h4, h5, h6, h7, h8, h9, h10, h11, h12, h13, h14, h15, -⟩ :=
      fieldMatches_names
    have hh := decodeHistory_encodeHistory hist hist0
    simp [encodeBill, decodeBill, decodeBillFields, decodeString, h1, h2, h3, h4, h5, h6, h7, h8,
      h9, h10, h11, h12, h13, h14, h15, hh]
theorem decodeHistory_encodeHistory : ∀ (hist old : List HistoryItem),
    decodeHistory (encodeHistory hist) old = (hist, true)
  | [], _ => by simp [encodeHistory, decodeHistory]
  | x :: xs, old => by
    have h1 := decodeItem_encodeItem x (old.head?.getD HistoryItem.zero)
    have h2 := decodeItems_encodeItems xs old.tail
    simp [encodeHistory, decodeHistory, decodeItems, h1, h2]
theorem decodeItems_encodeItems : ∀ (hist old : List HistoryItem),
    decodeItems (encodeItems hist) old = (hist, true)
  | [], _ => by simp [encodeItems, decodeItems]
  | x :: xs, old => by
    have h1 := decodeItem_encodeItem x (old.head?.getD HistoryItem.zero)
    have h2 := decodeItems_encodeItems xs old.tail
    simp [encodeItems, decodeItems, h1, h2]
theorem decodeItem_encodeItem : ∀ (x old : HistoryItem), decodeItem (encodeItem x) old = (x, true)
  | .mk t b, .mk t0 b0 => by
    obtain ⟨-, -, -, -, -, -, -, -, -, -, -, -, -, -, -, h16, h17, h18⟩ := fieldMatches_names
    have hb := decodeBill_encodeBill b b0
    simp [encodeItem, decodeItem, decodeItemFields, decodeString, h16, h17, h18, hb]
end

theorem encodeBill_injective : Function.Injective encodeBill := by
  intro a b h
  have ha := decodeBill_encodeBill a Bill.zero
  rw [h, decodeBill_encodeBill] at ha
  exact (Prod.mk.inj ha).1.symm

theorem encodeBills_injective : Function.Injective encodeBills := by
  intro a b h
  cases a <;> cases b <;> simp [encodeBills] at h ⊢
  obtain ⟨h1, h2⟩ := h
  exact ⟨encodeBill_injective h1, List.map_injective_iff.mpr encodeBill_injective h2⟩

theorem jsonUnmarshal_text_encodeBill (b old : Bill) :
    jsonUnmarshal (.text (encodeBill b)) old = (b, true) := by
  simp [jsonUnmarshal, decodeBill_encodeBill]

/-! ## The order of keys and the ordered state -/

theorem toNat_injective {a b : Char} (h : a.toNat = b.toNat) : a = b := by
  apply Char.ext
  apply UInt32.ext
  exact h

theorem keyLt_irrefl : ∀ a : List Char, keyLt a a = false
  | [] => by simp [keyLt]
  | x :: xs => by simp [keyLt, keyLt_irrefl xs]

theorem keyLt_trans : ∀ {a b c : List Char}, keyLt a b = true → keyLt b c = true →
    keyLt a c = true
  | _, [], _, h, _ => by simp [keyLt] at h
  | _, _ :: _, [], _, h => by simp [keyLt] at h
  | [], _ :: _, _ :: _, _, _ => by simp [keyLt]
  | x :: xs, y :: ys, z :: zs, h1, h2 => by
    simp only [keyLt] at h1 h2 ⊢
    by_cases hxy : x = y
    · subst hxy
      by_cases hxz : x = z
      · subst hxz
        simp only [if_true] at h1 h2 ⊢
        exact keyLt_trans h1 h2
      · simpa [hxz] using h2
    · by_cases hyz : y = z
      · subst hyz
        simpa [hxy] using h1
      · simp only [hxy, hyz, if_false, decide_eq_true_eq] at h1 h2
        have hxz : x ≠ z := by
          intro e
          subst e
          omega
        simp only [hxz, if_false, decide_eq_true_eq]
        omega

theorem keyLt_total : ∀ {a b : List Char}, a ≠ b → keyLt a b = false → keyLt b a = true
  | [], [], h, _ => absurd rfl h
  | [], _ :: _, _, h => by simp [keyLt] at h
  | _ :: _, [], _, _ => by simp [keyLt]
  | x :: xs, y :: ys, hne, h => by
    simp only [keyLt] at h ⊢
    by_cases hxy : x = y
    · subst hxy
      simp only [if_true] at h ⊢
      exact keyLt_total (fun e => hne (by rw [e])) h
    · have hyx : ¬ y = x := fun e => hxy e.symm
      simp only [hxy, if_false, decide_eq_false_iff_not] at h
      simp only [hyx, if_false, decide_eq_true_eq]
      have : x.toNat ≠ y.toNat := fun e => hxy (toNat_injective e)
      omega

theorem mem_putKV_sorted {key : String} {value : Bytes} {x : KV} :
    ∀ {st : List KV}, Sorted st → x ∈ putKV key value st →
      x = ⟨key, value⟩ ∨ (x ∈ st ∧ x.Key ≠ key)
  | [], _, h => by
    simp [putKV] at h
    exact Or.inl h
  | kv :: rest, hs, h => by
    have hs2 := List.pairwise_cons.mp hs
    simp only [putKV] at h
    split at h
    next hk =>
      rcases List.mem_cons.mp h with h | h
      · exact Or.inl h
      · refine Or.inr ⟨List.mem_cons_of_mem _ h, ?_⟩
        intro e
        have := hs2.1 x h
        rw [e, hk, keyLt_irrefl] at this
        exact Bool.noConfusion this
    next hk =>
      split at h
      next hlt =>
        rcases List.mem_cons.mp h with h | h
        · exact Or.inl h
        · refine Or.inr ⟨h, ?_⟩
          intro e
          rcases List.mem_cons.mp h with h | h
          · exact hk (by rw [← e, h])
          · have h3 := keyLt_trans hlt (hs2.1 x h)
            rw [e, keyLt_irrefl] at h3
            exact Bool.noConfusion h3
      next hlt =>
        rcases List.mem_cons.mp h with h | h
        · refine Or.inr ⟨by rw [h]; exact List.mem_cons_self _ _, ?_⟩
          rw [h]
          exact fun e => hk e.symm
        · rcases mem_putKV_sorted hs2.2 h with h | h
          · exact Or.inl h
          · exact Or.inr ⟨List.mem_cons_of_mem _ h.1, h.2⟩

theorem mem_putKV_self (key : String) (value : Bytes) :
    ∀ st : List KV, (⟨key, value⟩ : KV) ∈ putKV key value st
  | [] => by simp [putKV]
  | kv :: rest => by
    simp only [putKV]
    split
    · exact List.mem_cons_self _ _
    · split
      · exact List.mem_cons_self _ _
      · exact List.mem_cons_of_mem _ (mem_putKV_self key value rest)

theorem sorted_putKV (key : String) (value : Bytes) :
    ∀ {st : List KV}, Sorted st → Sorted (putKV key value st)
  | [], _ => by simp [putKV, Sorted]
  | kv :: rest, hs => by
    have hs2 := List.pairwise_cons.mp hs
    simp only [putKV]
    split
    next hk =>
      refine List.pairwise_cons.mpr ⟨?_, hs2.2⟩
      intro x hx
      have := hs2.1 x hx
      rw [← hk] at this
      exact this
    next hk =>
      split
      next hlt =>
        refine List.pairwise_cons.mpr ⟨?_, hs⟩
        intro x hx
        rcases List.mem_cons.mp hx with hx | hx
        · rw [hx]
          exact hlt
        · exact keyLt_trans hlt (hs2.1 x hx)
      next hlt =>
        refine List.pairwise_cons.mpr ⟨?_, sorted_putKV key value hs2.2⟩
        intro x hx
        rcases mem_putKV_sorted hs2.2 hx with hx | hx
        · rw [hx]
          refine keyLt_total ?_ (by simpa using hlt)
          intro e
          exact hk (String.ext e)
        · exact hs2.1 x hx.1

theorem getKV_putKV_same (key : String) (value : Bytes) :
    ∀ st : List KV, getKV key (putKV key value st) = value
  | [] => by simp [putKV, getKV]
  | kv :: rest => by
    simp only [putKV]
    split
    · simp [getKV]
    · split
      · simp [getKV]
      next hk _ =>
        have : ¬ kv.Key = key := fun e => hk e.symm
        simp [getKV, this, getKV_putKV_same key value rest]

theorem getKV_putKV_ne {key k : String} (value : Bytes) (hne : k ≠ key) :
    ∀ st : List KV, getKV k (putKV key value st) = getKV k st
  | [] => by
    have : ¬ key = k := fun e => hne e.symm
    simp [putKV, getKV, this]
  | kv :: rest => by
    have hne2 : ¬ key = k := fun e => hne e.symm
    simp only [putKV]
    split
    next hk =>
      have : ¬ kv.Key = k := by rw [← hk]; exact hne2
      simp [getKV, this, hne2]
    · split
      · simp [getKV, hne2]
      · simp [getKV, getKV_putKV_ne value hne rest]

theorem mem_of_getKV {key : String} : ∀ {st : List KV}, getKV key st ≠ .nil →
    ∃ kv ∈ st, kv.Key = key ∧ kv.Value = getKV key st
  | [], h => by simp [getKV] at h
  | x :: rest, h => by
    by_cases hx : x.Key = key
    · exact ⟨x, List.mem_cons_self _ _, hx, by simp [getKV, hx]⟩
    · simp only [getKV, hx, if_false] at h ⊢
      obtain ⟨kv, hm, hk, hv⟩ := mem_of_getKV h
      exact ⟨kv, List.mem_cons_of_mem _ hm, hk, hv⟩

theorem validate_iff (s : String) :
    Stub.validateCompositeKeyAttribute s = true ↔
      minUnicodeRuneValue ∉ s.data ∧ maxUnicodeRuneValue ∉ s.data := by
  simp only [Stub.validateCompositeKeyAttribute, List.all_eq_true, decide_eq_true_eq]
  constructor
  · intro h
    exact ⟨fun hm => (h _ hm).1 rfl, fun hm => (h _ hm).2 rfl⟩
  · intro h r hr
    exact ⟨fun e => h.1 (e ▸ hr), fun e => h.2 (e ▸ hr)⟩

theorem createCompositeKey_two {objectType a b key : String} :
    Stub.CreateCompositeKey objectType [a, b] = .ok key ↔
      Stub.validateCompositeKeyAttribute objectType = true ∧
      Stub.validateCompositeKeyAttribute a = true ∧
      Stub.validateCompositeKeyAttribute b = true ∧
      key.data = indexKeyData objectType a b := by
  unfold Stub.CreateCompositeKey
  by_cases h0 : Stub.validateCompositeKeyAttribute objectType = true
  swap
  · simp [h0]
  by_cases h1 : Stub.validateCompositeKeyAttribute a = true
  swap
  · simp [h0, h1, Stub.appendAttributes]
  by_cases h2 : Stub.validateCompositeKeyAttribute b = true
  swap
  · simp [h0, h1, h2, Stub.appendAttributes]
  simp only [h0, h1, h2, Stub.appendAttributes, if_true, true_and, Except.ok.injEq]
  constructor
  · intro h
    rw [← h]
    simp [indexKeyData, String.singleton]
  · intro h
    apply String.ext
    rw [h]
    simp [indexKeyData, String.singleton]

theorem createCompositeKey_one {objectType a key : String} :
    Stub.CreateCompositeKey objectType [a] = .ok key ↔
      Stub.validateCompositeKeyAttribute objectType = true ∧
      Stub.validateCompositeKeyAttribute a = true ∧
      key.data = partialKeyData objectType a := by
  unfold Stub.CreateCompositeKey
  by_cases h0 : Stub.validateCompositeKeyAttribute objectType = true
  swap
  · simp [h0]
  by_cases h1 : Stub.validateCompositeKeyAttribute a = true
  swap
  · simp [h0, h1, Stub.appendAttributes]
  simp only [h0, h1, Stub.appendAttributes, if_true, true_and, Except.ok.injEq]
  constructor
  · intro h
    rw [← h]
    simp [partialKeyData, String.singleton]
  · intro h
    apply String.ext
    rw [h]
    simp [partialKeyData, String.singleton]

theorem splitComponents_append (s : List Char) (hs : minUnicodeRuneValue ∉ s) :
    ∀ (cur rest : List Char),
      Stub.splitComponents cur (s ++ minUnicodeRuneValue :: rest) =
        String.mk (cur.reverse ++ s) :: Stub.splitComponents [] rest := by
  induction s with
  | nil =>
    intro cur rest
    simp [Stub.splitComponents]
  | cons x xs ih =>
    intro cur rest
    have hx : ¬ x = minUnicodeRuneValue := fun e => hs (by simp [e])
    have hxs : minUnicodeRuneValue ∉ xs := fun e => hs (List.mem_cons_of_mem _ e)
    rw [List.cons_append, Stub.splitComponents, if_neg hx, ih hxs]
    simp

theorem splitCompositeKey_indexKey {objectType a b key : String}
    (h : Stub.CreateCompositeKey objectType [a, b] = .ok key) :
    Stub.SplitCompositeKey key = .ok objectType [a, b] := by
  obtain ⟨h0, h1, h2, hk⟩ := createCompositeKey_two.mp h
  rw [validate_iff] at h0 h1 h2
  unfold Stub.SplitCompositeKey
  rw [hk]
  simp only [indexKeyData, List.tail_cons]
  rw [splitComponents_append _ h0.1, splitComponents_append _ h1.1,
    splitComponents_append _ h2.1]
  simp [Stub.splitComponents]

theorem append_sep_inj {z : Char} : ∀ {a a' r r' : List Char}, z ∉ a → z ∉ a' →
    a ++ z :: r = a' ++ z :: r' → a = a' ∧ r = r'
  | [], [], _, _, _, _, h => by simpa using h
  | [], y :: ys, _, _, _, hy, h => by
    simp only [List.nil_append, List.cons_append, List.cons.injEq] at h
    exact absurd (by simp [h.1]) hy
  | x :: xs, [], _, _, hx, _, h => by
    simp only [List.nil_append, List.cons_append, List.cons.injEq] at h
    exact absurd (by simp [h.1]) hx
  | x :: xs, y :: ys, _, _, hx, hy, h => by
    simp only [List.cons_append, List.cons.injEq] at h
    have := append_sep_inj (fun e => hx (List.mem_cons_of_mem _ e))
      (fun e => hy (List.mem_cons_of_mem _ e)) h.2
    exact ⟨by rw [h.1, this.1], this.2⟩

theorem indexKey_inj {objectType a b a' b' key : String}
    (h : Stub.CreateCompositeKey objectType [a, b] = .ok key)
    (h' : Stub.CreateCompositeKey objectType [a', b'] = .ok key) : a = a' ∧ b = b' := by
  have e1 := splitCompositeKey_indexKey h
  have e2 := splitCompositeKey_indexKey h'
  rw [e1] at e2
  simp only [Stub.SplitResult.ok.injEq, List.cons.injEq, and_true, true_and] at e2
  exact e2

/-! ## Range scans -/

theorem keyLt_append_left : ∀ (s a b : List Char), keyLt (s ++ a) (s ++ b) = keyLt a b
  | [], _, _ => rfl
  | x :: xs, a, b => by
    simp [keyLt, keyLt_append_left xs a b]

theorem toNat_le_max (r : Char) : r.toNat ≤ maxUnicodeRuneValue.toNat := by
  have hv := r.valid
  have hm : maxUnicodeRuneValue.toNat = 0x10FFFF := by decide
  rw [hm]
  have : r.toNat = r.val.toNat := rfl
  rcases hv with h | h
  · have h' : r.val.toNat < 0xd800 := h
    omega
  · have h' : r.val.toNat < 0x110000 := h.2
    omega

theorem keyLt_max {r : List Char} (h : maxUnicodeRuneValue ∉ r) :
    keyLt r [maxUnicodeRuneValue] = true := by
  cases r with
  | nil => simp [keyLt]
  | cons x xs =>
    have hx : ¬ x = maxUnicodeRuneValue := fun e => h (by simp [e])
    have h1 := toNat_le_max x
    have h2 : x.toNat ≠ maxUnicodeRuneValue.toNat := fun e => hx (toNat_injective e)
    simp only [keyLt, hx, if_false, decide_eq_true_eq]
    omega

theorem inRange_of_append {startKey : String} {kv : KV} {r : List Char}
    (hk : kv.Key.data = startKey.data ++ r) (hr : maxUnicodeRuneValue ∉ r) :
    Stub.inRange startKey (startKey ++ String.singleton maxUnicodeRuneValue) kv = true := by
  have h1 : keyLt kv.Key.data startKey.data = false := by
    have := keyLt_append_left startKey.data r []
    rw [List.append_nil] at this
    rw [hk, this]
    cases r <;> simp [keyLt]
  have h2 : keyLt kv.Key.data (startKey ++ String.singleton maxUnicodeRuneValue).data = true := by
    rw [hk, String.data_append, keyLt_append_left]
    exact keyLt_max hr
  rw [Stub.inRange, h1, h2]
  rfl

theorem append_of_between : ∀ {s k : List Char}, keyLt k s = false →
    keyLt k (s ++ [maxUnicodeRuneValue]) = true → ∃ r, k = s ++ r
  | [], k, _, _ => ⟨k, rfl⟩
  | _ :: _, [], h, _ => by simp [keyLt] at h
  | a :: s, b :: k, h1, h2 => by
    simp only [List.cons_append, keyLt] at h1 h2
    by_cases hba : b = a
    · subst hba
      simp only [if_true] at h1 h2
      obtain ⟨r, hr⟩ := append_of_between h1 h2
      exact ⟨r, by rw [hr]; rfl⟩
    · simp only [hba, if_false] at h1 h2
      rw [h1] at h2
      exact Bool.noConfusion h2

theorem append_of_inRange {startKey : String} {kv : KV}
    (h : Stub.inRange startKey (startKey ++ String.singleton maxUnicodeRuneValue) kv = true) :
    ∃ r, kv.Key.data = startKey.data ++ r := by
  simp only [Stub.inRange, Bool.and_eq_true, Bool.not_eq_true', String.data_append] at h
  exact append_of_between h.1 (by simpa [String.singleton] using h.2)

/-! ## The steps of `issue` -/

@[simp] theorem Bill.BillInfoID_setState (b : Bill) (s : String) :
    (b.setState s).BillInfoID = b.BillInfoID := by
  cases b; rfl

@[simp] theorem Bill.HoldrCmID_setState (b : Bill) (s : String) :
    (b.setState s).HoldrCmID = b.HoldrCmID := by
  cases b; rfl

@[simp] theorem Bill.WaitEndorseCmID_setState (b : Bill) (s : String) :
    (b.setState s).WaitEndorseCmID = b.WaitEndorseCmID := by
  cases b; rfl

@[simp] theorem Bill.History_setState (b : Bill) (s : String) :
    (b.setState s).History = b.History := by
  cases b; rfl

@[simp] theorem Bill.State_setState (b : Bill) (s : String) : (b.setState s).State = s := by
  cases b; rfl

theorem Bill.setHistory_eq (b : Bill) (items : List HistoryItem) :
    b.setHistory items =
      .mk b.BillInfoID b.HoldrCmID b.WaitEndorseCmID b.State items := by
  cases b; rfl

@[simp] theorem Bill.History_setHistory (b : Bill) (items : List HistoryItem) :
    (b.setHistory items).History = items := by
  cases b; rfl

theorem putState_ok {stub stub1 : Stub} {key : String} {value : Bytes}
    (h : stub.PutState key value = .ok stub1) :
    key ≠ "" ∧ key ∉ stub.faults.putState ∧
      stub1 = { stub with ledger := stub.ledger.put stub.TxID key value } := by
  unfold Stub.PutState at h
  split at h
  · exact Except.noConfusion h
  · split at h
    · exact Except.noConfusion h
    next h1 h2 =>
      injection h with h
      exact ⟨h1, h2, h.symm⟩

/-- The case analysis of `issue`: it writes nothing and answers an error; or it
writes the primary record and answers an error; or it writes the primary
record and then the index entry, and answers success. -/
theorem issue_cases (c : Consts) (stub : Stub) (args : List Bytes) :
    (∃ msg, issue c stub args = (.Error msg, stub)) ∨
    (∃ arg stub1, args = [arg] ∧ (jsonUnmarshal arg Bill.zero).2 = true ∧
      (getBill c stub (issuedBill c arg).BillInfoID).2 = false ∧
      stub.PutState (c.Bill_Prefix ++ (issuedBill c arg).BillInfoID)
        (.text (encodeBill (issuedBill c arg))) = .ok stub1 ∧
      ((∃ msg, issue c stub args = (.Error msg, stub1)) ∨
       (∃ key stub2,
          Stub.CreateCompositeKey c.IndexName
            [(issuedBill c arg).HoldrCmID, (issuedBill c arg).BillInfoID] = .ok key ∧
          stub1.PutState key indexMarker = .ok stub2 ∧
          issue c stub args = (.Success issueSuccessPayload, stub2)))) := by
  match args with
  | [] => exact Or.inl ⟨_, rfl⟩
  | _ :: _ :: _ => exact Or.inl ⟨_, rfl⟩
  | [arg] =>
    by_cases hd : (jsonUnmarshal arg Bill.zero).2 = true
    swap
    · left
      simp only [Bool.not_eq_true] at hd
      exact ⟨"反序列票据对象时发生错误", by simp [issue, hd]⟩
    by_cases hg : (getBill c stub (jsonUnmarshal arg Bill.zero).1.BillInfoID).2 = true
    · left
      exact ⟨"发布的票据已存在", by simp [issue, hd, hg]⟩
    simp only [Bool.not_eq_true] at hg
    cases hp : stub.PutState (c.Bill_Prefix ++ (issuedBill c arg).BillInfoID)
        (.text (encodeBill (issuedBill c arg))) with
    | error e =>
      left
      simp only [issuedBill, Bill.BillInfoID_setState] at hp
      exact ⟨"保存票据信息时发生错误", by simp [issue, hd, hg, pubBill, jsonMarshal, hp]⟩
    | ok stub1 =>
      right
      refine ⟨arg, stub1, rfl, hd, by simpa [issuedBill] using hg, hp, ?_⟩
      have hp' := hp
      simp only [issuedBill, Bill.BillInfoID_setState] at hp'
      cases hk : Stub.CreateCompositeKey c.IndexName
          [(issuedBill c arg).HoldrCmID, (issuedBill c arg).BillInfoID] with
      | error e =>
        left
        simp only [issuedBill, Bill.BillInfoID_setState, Bill.HoldrCmID_setState] at hk
        exact ⟨"创建复合键时发生错误", by simp [issue, hd, hg, pubBill, jsonMarshal, hp', hk]⟩
      | ok key =>
        have hk' := hk
        simp only [issuedBill, Bill.BillInfoID_setState, Bill.HoldrCmID_setState] at hk'
        cases hi : stub1.PutState key indexMarker with
        | error e =>
          left
          exact ⟨"保存复合键时发生错误", by simp [issue, hd, hg, pubBill, jsonMarshal, hp', hk', hi]⟩
        | ok stub2 =>
          right
          exact ⟨key, stub2, rfl, hi, by simp [issue, hd, hg, pubBill, jsonMarshal, hp', hk', hi]⟩

theorem primary_ne_index {c : Consts} (hc : c.WellFormed) {id h id' key : String}
    (hk : Stub.CreateCompositeKey c.IndexName [h, id'] = .ok key) :
    key ≠ c.Bill_Prefix ++ id := by
  obtain ⟨r, rs, hr, hne⟩ := hc
  intro e
  have h1 := (createCompositeKey_two.mp hk).2.2.2
  rw [e, String.data_append, hr, indexKeyData] at h1
  simp only [List.cons_append, List.cons.injEq] at h1
  exact hne h1.1

theorem append_left_cancel {p a b : String} (h : p ++ a = p ++ b) : a = b := by
  apply String.ext
  have := congrArg String.data h
  simpa using this

theorem inv_put_primary {c : Consts} {st : List KV} (hinv : Inv c st) (b : Bill)
    (hb : b.State = c.BillInfo_State_NewPublish) :
    Inv c (putKV (c.Bill_Prefix ++ b.BillInfoID) (.text (encodeBill b)) st) := by
  refine ⟨sorted_putKV _ _ hinv.sorted, ?_⟩
  intro kv hkv
  rcases mem_putKV_sorted hinv.sorted hkv with h | h
  · left
    exact ⟨b, by rw [h], by rw [h], hb⟩
  · rcases hinv.entries kv h.1 with hp | ⟨hd, id, hk, hv, b', hb', hg⟩
    · exact Or.inl hp
    · right
      refine ⟨hd, id, hk, hv, ?_⟩
      by_cases e : c.Bill_Prefix ++ id = c.Bill_Prefix ++ b.BillInfoID
      · refine ⟨b, (append_left_cancel e).symm, ?_⟩
        rw [e, getKV_putKV_same]
      · exact ⟨b', hb', by rw [getKV_putKV_ne _ e]; exact hg⟩

theorem inv_put_index {c : Consts} (hc : c.WellFormed) {st : List KV} (hinv : Inv c st)
    {h id key : String} (hk : Stub.CreateCompositeKey c.IndexName [h, id] = .ok key)
    (hrec : ∃ b : Bill, b.BillInfoID = id ∧
      getKV (c.Bill_Prefix ++ id) st = .text (encodeBill b)) :
    Inv c (putKV key indexMarker st) := by
  refine ⟨sorted_putKV _ _ hinv.sorted, ?_⟩
  intro kv hkv
  rcases mem_putKV_sorted hinv.sorted hkv with e | e
  · right
    obtain ⟨b, hb, hg⟩ := hrec
    refine ⟨h, id, by rw [e]; exact hk, by rw [e], b, hb, ?_⟩
    rw [getKV_putKV_ne _ (fun e' => primary_ne_index hc hk e'.symm)]
    exact hg
  · rcases hinv.entries kv e.1 with hp | ⟨hd, id', hk', hv, b', hb', hg⟩
    · exact Or.inl hp
    · right
      refine ⟨hd, id', hk', hv, b', hb', ?_⟩
      rw [getKV_putKV_ne _ (fun e' => primary_ne_index hc hk e'.symm)]
      exact hg

theorem inv_issue {c : Consts} (hc : c.WellFormed) (stub : Stub) (args : List Bytes)
    (hinv : Inv c stub.ledger.State) : Inv c (issue c stub args).2.ledger.State := by
  rcases issue_cases c stub args with ⟨msg, h⟩ | ⟨arg, stub1, -, -, -, hp, h⟩
  · rw [h]
    exact hinv
  · have h1 := (putState_ok hp).2.2
    have hinv1 : Inv c stub1.ledger.State := by
      rw [h1]
      exact inv_put_primary hinv (issuedBill c arg) (by simp [issuedBill])
    rcases h with ⟨msg, h⟩ | ⟨key, stub2, hk, hi, h⟩
    · rw [h]
      exact hinv1
    · rw [h]
      have h2 := (putState_ok hi).2.2
      rw [h2]
      refine inv_put_index hc hinv1 hk ⟨issuedBill c arg, rfl, ?_⟩
      rw [h1]
      exact getKV_putKV_same _ _ _

theorem inv_empty (c : Consts) : Inv c Ledger.empty.State :=
  ⟨List.Pairwise.nil, fun _ h => absurd h (List.not_mem_nil _)⟩

theorem reach_inv {c : Consts} (hc : c.WellFormed) {allowed : Faults → Prop} {l : Ledger}
    {ids : List String} (h : Reach c allowed l ids) : Inv c l.State := by
  induction h with
  | empty => exact inv_empty c
  | step stub args ids _ _ ih => exact inv_issue hc stub args ih

/-! ## Lookups -/

theorem getBill_of_getState {c : Consts} {stub : Stub} {billNo : String} {b : Bytes}
    (h : stub.GetState (c.Bill_Prefix ++ billNo) = .ok b) :
    getBill c stub billNo = jsonUnmarshal b Bill.zero := by
  simp only [getBill, h]
  split <;> rename_i hr
  · rw [← hr]
  · simp only [Bool.not_eq_true] at hr
    rw [← hr]

theorem getState_ok {stub : Stub} {key : String} (h : key ∉ stub.faults.getState) :
    stub.GetState key = .ok (getKV key stub.ledger.State) := by
  simp [Stub.GetState, h]

theorem getBill_of_record {c : Consts} {stub : Stub} {billNo : String} {b : Bill}
    (hf : c.Bill_Prefix ++ billNo ∉ stub.faults.getState)
    (h : getKV (c.Bill_Prefix ++ billNo) stub.ledger.State = .text (encodeBill b)) :
    getBill c stub billNo = (b, true) := by
  rw [getBill_of_getState (getState_ok hf), h, jsonUnmarshal_text_encodeBill]

theorem getBill_true {c : Consts} {stub : Stub} {billNo : String} {b : Bill}
    (h : getBill c stub billNo = (b, true)) :
    jsonUnmarshal (getKV (c.Bill_Prefix ++ billNo) stub.ledger.State) Bill.zero = (b, true) := by
  by_cases hf : c.Bill_Prefix ++ billNo ∈ stub.faults.getState
  · simp [getBill, Stub.GetState, hf] at h
  · rw [getBill_of_getState (getState_ok hf)] at h
    exact h

theorem issue_success {c : Consts} {stub stub' : Stub} {args : List Bytes} {out : Bytes}
    (h : issue c stub args = (.Success out, stub')) :
    ∃ arg stub1 key, args = [arg] ∧ (jsonUnmarshal arg Bill.zero).2 = true ∧
      (getBill c stub (issuedBill c arg).BillInfoID).2 = false ∧
      stub.PutState (c.Bill_Prefix ++ (issuedBill c arg).BillInfoID)
        (.text (encodeBill (issuedBill c arg))) = .ok stub1 ∧
      Stub.CreateCompositeKey c.IndexName
        [(issuedBill c arg).HoldrCmID, (issuedBill c arg).BillInfoID] = .ok key ∧
      stub1.PutState key indexMarker = .ok stub' := by
  rcases issue_cases c stub args with ⟨msg, e⟩ | ⟨arg, stub1, ha, hd, hg, hp, e⟩
  · rw [e] at h
    simp at h
  · rcases e with ⟨msg, e⟩ | ⟨key, stub2, hk, hi, e⟩
    · rw [e] at h
      simp at h
    · rw [e] at h
      have : stub2 = stub' := (Prod.mk.inj h).2
      subst this
      exact ⟨arg, stub1, key, ha, hd, hg, hp, hk, hi⟩

theorem issue_success_record {c : Consts} (hc : c.WellFormed) {stub stub' : Stub}
    {payload out : Bytes} (h : issue c stub [payload] = (.Success out, stub')) :
    getKV (c.Bill_Prefix ++ (issuedBill c payload).BillInfoID) stub'.ledger.State =
      .text (encodeBill (issuedBill c payload)) := by
  obtain ⟨arg, stub1, key, ha, -, -, hp, hk, hi⟩ := issue_success h
  have : payload = arg := by simpa using ha
  subst this
  rw [(putState_ok hi).2.2, (putState_ok hp).2.2]
  simp only [Ledger.put]
  rw [getKV_putKV_ne _ (fun e => primary_ne_index hc hk e.symm), getKV_putKV_same]

/-! ## The scan loops -/

theorem nextResults_nil {α : Type} : ∀ (n : Nat) (xs : List α),
    nextResults [] n xs = xs.map Except.ok
  | _, [] => rfl
  | n, x :: xs => by simp [nextResults, nextResults_nil (n + 1) xs]

theorem resolve_indexKey {c : Consts} {stub : Stub} {kv : KV} {h id : String}
    (hk : Stub.CreateCompositeKey c.IndexName [h, id] = .ok kv.Key) :
    resolve c stub kv = (getBill c stub id).1 := by
  simp [resolve, splitCompositeKey_indexKey hk]

theorem queryMyBillsLoop_ok (c : Consts) (stub : Stub) : ∀ (entries : List KV) (bills : List Bill),
    (∀ kv ∈ entries, ∃ h id, Stub.CreateCompositeKey c.IndexName [h, id] = .ok kv.Key ∧
      (getBill c stub id).2 = true) →
    queryMyBillsLoop c stub (entries.map Except.ok) bills =
      .ok (bills ++ entries.map (resolve c stub))
  | [], bills, _ => by simp [queryMyBillsLoop]
  | kv :: rest, bills, h => by
    obtain ⟨hd, id, hk, hg⟩ := h kv (List.mem_cons_self _ _)
    have ih := queryMyBillsLoop_ok c stub rest (bills ++ [resolve c stub kv])
      (fun x hx => h x (List.mem_cons_of_mem _ hx))
    have hb : getBill c stub id = (resolve c stub kv, true) := by
      rw [resolve_indexKey hk, ← hg]
    simp only [List.map_cons, queryMyBillsLoop, splitCompositeKey_indexKey hk, List.tail_cons,
      List.head?_cons, hb, ih]
    simp

theorem queryMyWaitBillsLoop_ok (c : Consts) (stub : Stub) (e : String) :
    ∀ (entries : List KV) (bills : List Bill),
    (∀ kv ∈ entries, ∃ h id, Stub.CreateCompositeKey c.IndexName [h, id] = .ok kv.Key ∧
      (getBill c stub id).2 = true) →
    queryMyWaitBillsLoop c stub e (entries.map Except.ok) bills =
      .ok (bills ++ (entries.map (resolve c stub)).filter (fun b =>
        decide (b.State = c.BillInfo_State_EndorseWaitSign ∧ b.WaitEndorseCmID = e)))
  | [], bills, _ => by simp [queryMyWaitBillsLoop]
  | kv :: rest, bills, h => by
    obtain ⟨hd, id, hk, hg⟩ := h kv (List.mem_cons_self _ _)
    have hb : getBill c stub id = (resolve c stub kv, true) := by
      rw [resolve_indexKey hk, ← hg]
    by_cases hf : (resolve c stub kv).State = c.BillInfo_State_EndorseWaitSign ∧
        (resolve c stub kv).WaitEndorseCmID = e
    · have ih := queryMyWaitBillsLoop_ok c stub e rest (bills ++ [resolve c stub kv])
        (fun x hx => h x (List.mem_cons_of_mem _ hx))
      simp only [List.map_cons, queryMyWaitBillsLoop, splitCompositeKey_indexKey hk,
        List.tail_cons, List.head?_cons, hb, ih, hf, and_self, if_true]
      simp [hf]
    · have ih := queryMyWaitBillsLoop_ok c stub e rest bills
        (fun x hx => h x (List.mem_cons_of_mem _ hx))
      simp only [List.map_cons, queryMyWaitBillsLoop, splitCompositeKey_indexKey hk,
        List.tail_cons, List.head?_cons, hb, ih, hf, if_false]
      simp [hf]

theorem countP_key_eq_one {key : String} : ∀ {st : List KV}, Sorted st →
    (∃ kv ∈ st, kv.Key = key) → st.countP (fun kv => decide (kv.Key = key)) = 1
  | [], _, h => by simp at h
  | x :: rest, hs, h => by
    have hs2 := List.pairwise_cons.mp hs
    by_cases hx : x.Key = key
    · have h0 : rest.countP (fun kv => decide (kv.Key = key)) = 0 := by
        rw [List.countP_eq_zero]
        intro kv hkv
        simp only [decide_eq_true_eq]
        intro e
        have h3 := hs2.1 kv hkv
        rw [hx, e, keyLt_irrefl] at h3
        exact Bool.noConfusion h3
      simp [List.countP_cons, hx, h0]
    · obtain ⟨kv, hkv, hk⟩ := h
      rcases List.mem_cons.mp hkv with e | e
      · exact absurd (e ▸ hk) hx
      · simp [List.countP_cons, hx, countP_key_eq_one hs2.2 ⟨kv, e, hk⟩]

/-- The entries of a scan for a holder, in a state that satisfies the
invariant, are index entries of that holder whose bill is stored. -/
theorem scan_entries {c : Consts} (hc : c.WellFormed) {st : List KV} (hinv : Inv c st)
    {holder startKey : String}
    (hstart : Stub.CreateCompositeKey c.IndexName [holder] = .ok startKey) {kv : KV}
    (hkv : kv ∈ st.filter
      (Stub.inRange startKey (startKey ++ String.singleton maxUnicodeRuneValue))) :
    ∃ id b, Stub.CreateCompositeKey c.IndexName [holder, id] = .ok kv.Key ∧
      b.BillInfoID = id ∧ getKV (c.Bill_Prefix ++ id) st = .text (encodeBill b) := by
  obtain ⟨hmem, hr⟩ := List.mem_filter.mp hkv
  obtain ⟨r, hr⟩ := append_of_inRange hr
  obtain ⟨-, hvh, hs⟩ := createCompositeKey_one.mp hstart
  rw [hs, partialKeyData] at hr
  rcases hinv.entries kv hmem with ⟨b, hk, -, -⟩ | ⟨h', id', hk', -, b, hb, hg⟩
  · obtain ⟨r0, rs, hp, hne⟩ := hc
    rw [hk, String.data_append, hp] at hr
    simp only [List.cons_append, List.cons.injEq] at hr
    exact absurd hr.1 hne
  · obtain ⟨-, hvh', -, hd⟩ := createCompositeKey_two.mp hk'
    rw [hd, indexKeyData] at hr
    simp only [List.cons_append, List.cons.injEq, true_and, List.append_assoc,
      List.append_cancel_left_eq] at hr
    rw [validate_iff] at hvh hvh'
    have e := (append_sep_inj hvh'.1 hvh.1 hr).1
    have e' : h' = holder := String.ext e
    subst e'
    exact ⟨id', b, hk', hb, hg⟩

theorem scan_entries_resolve {c : Consts} (hc : c.WellFormed) {q : Stub}
    (hinv : Inv c q.ledger.State) (hf : q.faults.getState = []) {holder startKey : String}
    (hstart : Stub.CreateCompositeKey c.IndexName [holder] = .ok startKey) {kv : KV}
    (hkv : kv ∈ q.ledger.State.filter
      (Stub.inRange startKey (startKey ++ String.singleton maxUnicodeRuneValue))) :
    ∃ id, Stub.CreateCompositeKey c.IndexName [holder, id] = .ok kv.Key ∧
      getBill c q id = (resolve c q kv, true) ∧ (resolve c q kv).BillInfoID = id := by
  obtain ⟨id, b, hk, hb, hg⟩ := scan_entries hc hinv hstart hkv
  have hgb : getBill c q id = (b, true) := getBill_of_record (by rw [hf]; simp) hg
  have hr : resolve c q kv = b := by rw [resolve_indexKey hk, hgb]
  exact ⟨id, hk, by rw [hr]; exact hgb, by rw [hr]; exact hb⟩

theorem queryMyBills_of_inv {c : Consts} (hc : c.WellFormed) {q : Stub}
    (hinv : Inv c q.ledger.State) (hf : q.faults = Faults.none) {holder startKey : String}
    (hstart : Stub.CreateCompositeKey c.IndexName [holder] = .ok startKey) :
    queryMyBills c q [holder] = .returned (.Success (.text (encodeBills
      ((q.ledger.State.filter
        (Stub.inRange startKey (startKey ++ String.singleton maxUnicodeRuneValue))).map
        (resolve c q))))) := by
  have hg : q.faults.getState = [] := by rw [hf]; rfl
  have hloop := queryMyBillsLoop_ok c q (q.ledger.State.filter
      (Stub.inRange startKey (startKey ++ String.singleton maxUnicodeRuneValue))) []
    (fun kv hkv => by
      obtain ⟨id, hk, hb, -⟩ := scan_entries_resolve hc hinv hg hstart hkv
      exact ⟨holder, id, hk, by rw [hb]⟩)
  simp only [queryMyBills, Stub.GetStateByPartialCompositeKey, hstart, hf, Faults.none,
    nextResults_nil, jsonMarshalBills, Bool.false_eq_true, if_false]
  rw [hloop]
  simp

theorem queryMyWaitBills_of_inv {c : Consts} (hc : c.WellFormed) {q : Stub}
    (hinv : Inv c q.ledger.State) (hf : q.faults = Faults.none) {e startKey : String}
    (hstart : Stub.CreateCompositeKey c.IndexName [e] = .ok startKey) :
    queryMyWaitBills c q [e] = .returned (.Success (.text (encodeBills
      (((q.ledger.State.filter
        (Stub.inRange startKey (startKey ++ String.singleton maxUnicodeRuneValue))).map
        (resolve c q)).filter (fun b =>
          decide (b.State = c.BillInfo_State_EndorseWaitSign ∧ b.WaitEndorseCmID = e)))))) := by
  have hg : q.faults.getState = [] := by rw [hf]; rfl
  have hloop := queryMyWaitBillsLoop_ok c q e (q.ledger.State.filter
      (Stub.inRange startKey (startKey ++ String.singleton maxUnicodeRuneValue))) []
    (fun kv hkv => by
      obtain ⟨id, hk, hb, -⟩ := scan_entries_resolve hc hinv hg hstart hkv
      exact ⟨e, id, hk, by rw [hb]⟩)
  simp only [queryMyWaitBills, Stub.GetStateByPartialCompositeKey, hstart, hf, Faults.none,
    nextResults_nil, jsonMarshalBills, Bool.false_eq_true, if_false]
  rw [hloop]
  simp

theorem indexKey_inRange {objectType a b startKey key : String}
    (hstart : Stub.CreateCompositeKey objectType [a] = .ok startKey)
    (hkey : Stub.CreateCompositeKey objectType [a, b] = .ok key) (kv : KV) (hk : kv.Key = key) :
    Stub.inRange startKey (startKey ++ String.singleton maxUnicodeRuneValue) kv = true := by
  obtain ⟨-, -, hs⟩ := createCompositeKey_one.mp hstart
  obtain ⟨-, -, hvb, hd⟩ := createCompositeKey_two.mp hkey
  rw [validate_iff] at hvb
  apply inRange_of_append (r := b.data ++ [minUnicodeRuneValue])
  · rw [hk, hd, hs]
    simp [indexKeyData, partialKeyData]
  · intro hm
    rcases List.mem_append.mp hm with hm | hm
    · exact hvb.2 hm
    · simp only [List.mem_singleton] at hm
      exact absurd hm (by decide)

theorem queryMyWaitBillsLoop_sound (c : Consts) (stub : Stub) (e : String) :
    ∀ (it : List (Except String KV)) (acc bills : List Bill),
    queryMyWaitBillsLoop c stub e it acc = .ok bills →
    ∀ b ∈ bills, b ∈ acc ∨
      ((b.State = c.BillInfo_State_EndorseWaitSign ∧ b.WaitEndorseCmID = e) ∧
        ∃ billNo, getBill c stub billNo = (b, true))
  | [], acc, bills, h, b, hb => by
    simp only [queryMyWaitBillsLoop, Except.ok.injEq] at h
    subst h
    exact Or.inl hb
  | .error _ :: _, _, _, h, _, _ => by simp [queryMyWaitBillsLoop] at h
  | .ok kv :: rest, acc, bills, h, b, hb => by
    simp only [queryMyWaitBillsLoop] at h
    split at h
    · simp at h
    · simp at h
    · split at h
      · simp at h
      · split at h
        · simp at h
        next bill hbill =>
          split at h
          next hf =>
            rcases queryMyWaitBillsLoop_sound c stub e rest _ bills h b hb with hm | hm
            · rcases List.mem_append.mp hm with hm | hm
              · exact Or.inl hm
              · simp only [List.mem_singleton] at hm
                subst hm
                exact Or.inr ⟨hf, _, hbill⟩
            · exact Or.inr hm
          · exact queryMyWaitBillsLoop_sound c stub e rest _ bills h b hb

theorem queryMyWaitBillsLoop_error (c : Consts) (stub : Stub) (e : String) :
    ∀ (it : List (Except String KV)) (acc : List Bill) (out : Outcome),
    queryMyWaitBillsLoop c stub e it acc = .error out →
    ∀ payload, out ≠ .returned (.Success payload)
  | [], _, _, h => by simp [queryMyWaitBillsLoop] at h
  | .error _ :: _, _, _, h => by
    simp only [queryMyWaitBillsLoop, Except.error.injEq] at h
    subst h
    simp
  | .ok kv :: rest, acc, out, h => by
    simp only [queryMyWaitBillsLoop] at h
    split at h
    · simp only [Except.error.injEq] at h
      subst h
      simp
    · simp only [Except.error.injEq] at h
      subst h
      simp
    · split at h
      · simp only [Except.error.injEq] at h
        subst h
        simp
      · split at h
        · simp only [Except.error.injEq] at h
          subst h
          simp
        · split at h
          · exact queryMyWaitBillsLoop_error c stub e rest _ out h
          · exact queryMyWaitBillsLoop_error c stub e rest _ out h

theorem queryMyWaitBills_success {c : Consts} {stub : Stub} {e : String} {payload : Bytes}
    (h : queryMyWaitBills c stub [e] = .returned (.Success payload)) :
    ∃ it bills, queryMyWaitBillsLoop c stub e it [] = .ok bills ∧
      payload = .text (encodeBills bills) := by
  simp only [queryMyWaitBills] at h
  split at h
  · simp at h
  next it _ =>
    split at h
    next out hout =>
      exact absurd h (queryMyWaitBillsLoop_error c stub e it [] out hout payload)
    next bills hbills =>
      simp only [jsonMarshalBills, Outcome.returned.injEq, Response.Success.injEq] at h
      exact ⟨it, bills, hbills, h.symm⟩

/-- In a state that satisfies the invariant, every bill `getBill` resolves is
in state `NewPublish`. -/
theorem getBill_state_of_inv {c : Consts} {stub : Stub} (hinv : Inv c stub.ledger.State)
    {billNo : String} {b : Bill} (h : getBill c stub billNo = (b, true)) :
    b.State = c.BillInfo_State_NewPublish := by
  have h1 := getBill_true h
  have hne : getKV (c.Bill_Prefix ++ billNo) stub.ledger.State ≠ .nil := by
    intro e
    rw [e] at h1
    simp [jsonUnmarshal] at h1
  obtain ⟨kv, hm, -, hv⟩ := mem_of_getKV hne
  rw [← hv] at h1
  rcases hinv.entries kv hm with ⟨b', -, hv', hs⟩ | ⟨-, -, -, hv', -⟩
  · rw [hv', jsonUnmarshal_text_encodeBill] at h1
    rw [← (Prod.mk.inj h1).1]
    exact hs
  · rw [hv'] at h1
    simp [jsonUnmarshal, indexMarker] at h1

/-! ## The history loop -/

theorem queryBillByNoLoop_ok : ∀ (vs : List KeyModification) (hisBill : Bill)
    (acc : List HistoryItem),
    ∃ items : List HistoryItem,
      queryBillByNoLoop (vs.map Except.ok) hisBill acc = .ok (acc ++ items) ∧
      items.length = vs.length ∧
      ∀ (k : Nat) (v : KeyModification), vs[k]? = some v →
        ∃ item, items[k]? = some item ∧ item.TxId = v.TxId ∧
          (v.Value = .nil → item.Bill = Bill.zero)
  | [], _, acc => ⟨[], by simp [queryBillByNoLoop]⟩
  | v :: rest, hisBill, acc => by
    obtain ⟨items, hloop, hlen, hitems⟩ := queryBillByNoLoop_ok rest
      (jsonUnmarshal v.Value hisBill).1
      (acc ++ [match v.Value with
        | .nil => HistoryItem.mk v.TxId Bill.zero
        | _ => HistoryItem.mk v.TxId (jsonUnmarshal v.Value hisBill).1])
    refine ⟨(match v.Value with
        | .nil => HistoryItem.mk v.TxId Bill.zero
        | _ => HistoryItem.mk v.TxId (jsonUnmarshal v.Value hisBill).1) :: items, ?_,
      by simp [hlen], ?_⟩
    · simp only [List.map_cons, queryBillByNoLoop]
      rw [hloop]
      simp
    · intro k w hk
      cases k with
      | zero =>
        simp only [List.getElem?_cons_zero, Option.some.injEq] at hk
        subst hk
        refine ⟨_, List.getElem?_cons_zero, ?_, ?_⟩
        · cases v.Value <;> rfl
        · intro hv
          rw [hv]
          rfl
      | succ k =>
        simp only [List.getElem?_cons_succ] at hk ⊢
        exact hitems k w hk

/-! ## The version log under `issue` -/

/-- C2 (index consistency): in every ledger reachable from the empty ledger by
invocations of `issue`, when `issue` succeeds on a payload, `queryMyBills` for
the payload's holder, run on the ledger `issue` left with every call to the
peer answered, succeeds, and the list it returns has exactly one bill whose
`BillInfoID` is the payload's. -/
theorem issue_then_queryMyBills (c : Consts) (hc : c.WellFormed) (l : Ledger)
    (ids : List String) (hreach : Reach c anyFaults l ids) (stub stub' q : Stub)
    (payload out : Bytes) (hl : stub.ledger = l)
    (hissue : issue c stub [payload] = (.Success out, stub'))
    (hq : q.ledger = stub'.ledger) (hfaults : q.faults = Faults.none) :
    ∃ bills : List Bill,
      queryMyBills c q [(jsonUnmarshal payload Bill.zero).1.HoldrCmID] =
        .returned (.Success (.text (encodeBills bills))) ∧
      bills.countP (fun b =>
        decide (b.BillInfoID = (jsonUnmarshal payload Bill.zero).1.BillInfoID)) = 1 := by
  have hinv0 : Inv c stub.ledger.State := by rw [hl]; exact reach_inv hc hreach
  have hinv : Inv c q.ledger.State := by
    have := inv_issue hc stub [payload] hinv0
    rw [hissue] at this
    rw [hq]
    exact this
  obtain ⟨arg, stub1, key, ha, -, -, hp, hk, hi⟩ := issue_success hissue
  have : payload = arg := by simpa using ha
  subst this
  simp only [issuedBill, Bill.BillInfoID_setState, Bill.HoldrCmID_setState] at hk
  obtain ⟨hv0, hv1, -, -⟩ := createCompositeKey_two.mp hk
  obtain ⟨startKey, hstart⟩ : ∃ s, Stub.CreateCompositeKey c.IndexName
      [(jsonUnmarshal payload Bill.zero).1.HoldrCmID] = .ok s :=
    ⟨⟨partialKeyData c.IndexName (jsonUnmarshal payload Bill.zero).1.HoldrCmID⟩,
      createCompositeKey_one.mpr ⟨hv0, hv1, rfl⟩⟩
  have hg : q.faults.getState = [] := by rw [hfaults]; rfl
  refine ⟨_, queryMyBills_of_inv hc hinv hfaults hstart, ?_⟩
  have hmem : ∃ kv ∈ q.ledger.State, kv.Key = key := by
    refine ⟨⟨key, indexMarker⟩, ?_, rfl⟩
    rw [hq, (putState_ok hi).2.2]
    exact mem_putKV_self _ _ _
  rw [List.countP_map, ← countP_key_eq_one hinv.sorted hmem, List.countP_filter]
  apply List.countP_congr
  intro kv hkv
  simp only [Function.comp, decide_eq_true_eq, Bool.and_eq_true]
  constructor
  · rintro ⟨hid, hr⟩
    obtain ⟨id, hk', -, hb⟩ :=
      scan_entries_resolve hc hinv hg hstart (List.mem_filter.mpr ⟨hkv, hr⟩)
    rw [hid] at hb
    rw [← hb, hk] at hk'
    exact (Except.ok.inj hk').symm
  · intro hkey
    have hr := indexKey_inRange hstart hk kv hkey
    refine ⟨?_, hr⟩
    obtain ⟨id, hk', -, hb⟩ :=
      scan_entries_resolve hc hinv hg hstart (List.mem_filter.mpr ⟨hkv, hr⟩)
    rw [hkey] at hk'
    rw [hb]
    exact (indexKey_inj hk' hk).2

/-- Witness for C2: B1 is issued for H1 on the empty ledger. -/
theorem issue_then_queryMyBills_witness :
    ∃ bills : List Bill,
      queryMyBills exampleConsts stubAfterB1 ["H1"] =
        .returned (.Success (.text (encodeBills bills))) ∧
      bills.countP (fun b => decide (b.BillInfoID = "B1")) = 1 :=
  issue_then_queryMyBills exampleConsts ⟨'B', _, rfl, by decide⟩ Ledger.empty [] Reach.empty
    stubEmpty (issue exampleConsts stubEmpty [payloadB1]).2 stubAfterB1 payloadB1
    issueSuccessPayload rfl rfl rfl rfl

/-- C3 (issue then lookup): when `issue` succeeds on a payload, a later
`getBill` of the payload's id, on the ledger `issue` left and with the read
answered, returns the bill decoded from the payload with `State` set to
`NewPublish`, whatever state the payload carried, together with `true`. -/
theorem issue_then_getBill (c : Consts) (hc : c.WellFormed) (stub stub' later : Stub)
    (payload out : Bytes)
    (hissue : issue c stub [payload] = (.Success out, stub'))
    (hlater : later.ledger = stub'.ledger)
    (hread : c.Bill_Prefix ++ (jsonUnmarshal payload Bill.zero).1.BillInfoID ∉
      later.faults.getState) :
    getBill c later (jsonUnmarshal payload Bill.zero).1.BillInfoID =
      ((jsonUnmarshal payload Bill.zero).1.setState c.BillInfo_State_NewPublish, true) := by
  have h := issue_success_record hc hissue
  simp only [issuedBill, Bill.BillInfoID_setState] at h
  rw [← hlater] at h
  exact getBill_of_record hread h

/-- Witness for C3: B1 is issued on the empty ledger and looked up. -/
theorem issue_then_getBill_witness :
    getBill exampleConsts stubAfterB1 "B1" = (.mk "B1" "H1" "" "NewPublish" [], true) :=
  issue_then_getBill exampleConsts ⟨'B', _, rfl, by decide⟩ stubEmpty
    (issue exampleConsts stubEmpty [payloadB1]).2 stubAfterB1 payloadB1 issueSuccessPayload
    rfl rfl (by decide)

/-- C4 (pending-endorsement filter): every bill of a list `queryMyWaitBills(e)`
returns is in state `EndorseWaitSign` with pending endorsee `e`, so it is not
in state `NewPublish`; and on a ledger reachable from the empty ledger by
invocations of `issue` alone, every list it returns is empty, and it does
return the empty list when every call to the peer is answered and `e` is a
legal key attribute. The constants are assumed to name two different states,
and the index name to be a legal key attribute. -/
theorem queryMyWaitBills_filter (c : Consts) (hc : c.WellFormed)
    (hstates : c.BillInfo_State_NewPublish ≠ c.BillInfo_State_EndorseWaitSign) :
    (∀ (stub : Stub) (e : String) (bills : List Bill),
      queryMyWaitBills c stub [e] = .returned (.Success (.text (encodeBills bills))) →
      ∀ b ∈ bills, b.State = c.BillInfo_State_EndorseWaitSign ∧ b.WaitEndorseCmID = e ∧
        b.State ≠ c.BillInfo_State_NewPublish) ∧
    (∀ (l : Ledger) (ids : List String) (stub : Stub) (e : String),
      Reach c anyFaults l ids → stub.ledger = l →
      (∀ bills : List Bill,
        queryMyWaitBills c stub [e] = .returned (.Success (.text (encodeBills bills))) →
        bills = []) ∧
      (stub.faults = Faults.none → Stub.validateCompositeKeyAttribute c.IndexName = true →
        Stub.validateCompositeKeyAttribute e = true →
        queryMyWaitBills c stub [e] = .returned (.Success (.text (encodeBills []))))) := by
  have key : ∀ (stub : Stub) (e : String) (bills : List Bill),
      queryMyWaitBills c stub [e] = .returned (.Success (.text (encodeBills bills))) →
      ∀ b ∈ bills, (b.State = c.BillInfo_State_EndorseWaitSign ∧ b.WaitEndorseCmID = e) ∧
        ∃ billNo, getBill c stub billNo = (b, true) := by
    intro stub e bills h b hb
    obtain ⟨it, bills', hloop, hp⟩ := queryMyWaitBills_success h
    have : bills = bills' := encodeBills_injective (Bytes.text.inj hp)
    subst this
    rcases queryMyWaitBillsLoop_sound c stub e it [] bills hloop b hb with hm | hm
    · simp at hm
    · exact hm
  have empty : ∀ (l : Ledger) (ids : List String) (stub : Stub) (e : String),
      Reach c anyFaults l ids → stub.ledger = l → ∀ bills : List Bill,
      queryMyWaitBills c stub [e] = .returned (.Success (.text (encodeBills bills))) →
      bills = [] := by
    intro l ids stub e hreach hl bills h
    have hinv : Inv c stub.ledger.State := by rw [hl]; exact reach_inv hc hreach
    apply List.eq_nil_iff_forall_not_mem.mpr
    intro b hb
    obtain ⟨⟨hs, -⟩, billNo, hg⟩ := key stub e bills h b hb
    exact hstates ((getBill_state_of_inv hinv hg).symm.trans hs)
  refine ⟨?_, ?_⟩
  · intro stub e bills h b hb
    obtain ⟨⟨hs, hw⟩, -⟩ := key stub e bills h b hb
    exact ⟨hs, hw, fun e' => hstates (e'.symm.trans hs)⟩
  · intro l ids stub e hreach hl
    refine ⟨empty l ids stub e hreach hl, ?_⟩
    intro hf hv0 hv1
    have hinv : Inv c stub.ledger.State := by rw [hl]; exact reach_inv hc hreach
    have hstart : Stub.CreateCompositeKey c.IndexName [e] =
        .ok ⟨partialKeyData c.IndexName e⟩ := createCompositeKey_one.mpr ⟨hv0, hv1, rfl⟩
    have h := queryMyWaitBills_of_inv hc hinv hf hstart
    rw [empty l ids stub e hreach hl _ h] at h
    exact h

/-- Witness for C4: after B1 was issued for H1 the index entry (H1, B1) exists,
and `queryMyWaitBills` for H1 returns the empty list. -/
theorem queryMyWaitBills_filter_witness :
    queryMyWaitBills exampleConsts stubAfterB1 ["H1"] =
      .returned (.Success (.text (encodeBills []))) :=
  ((queryMyWaitBills_filter exampleConsts ⟨'B', _, rfl, by decide⟩ (by decide)).2
    stubAfterB1.ledger _ stubAfterB1 "H1"
    (Reach.step stubEmpty [payloadB1] [] Reach.empty trivial) rfl).2 rfl (by decide) (by decide)

/-- C5, the code at the failing input: B1 is issued for H1 and the first
`Next` of the scan for H1 fails. `queryMyBills` discards the error and reads
the key of the nil result, so the invocation panics instead of answering an
error; `queryBillByNo`, which checks the error of `Next`, answers an error
when the first `Next` of its history iterator fails. -/
theorem queryMyBills_next_error_panics :
    queryMyBills exampleConsts stubRangeNextFails ["H1"] =
      .panic "nil pointer dereference" ∧
    queryBillByNo exampleConsts stubHistoryNextFails ["B1"] =
      .returned (.Error "获取历史流转信息时发生错误") :=
  ⟨rfl, rfl⟩

/-- C6, counterexample: the record stored under `Bill_B1` carries the id B2;
B1 resolves and the version log of `Bill_B1` has one version, but
`queryBillByNo(B1)` reads the version log of `Bill_B2`, which is empty, and
returns the bill with an empty history. -/
theorem history_of_stored_id_counterexample :
    (getBill exampleConsts stubMismatch "B1").2 = true ∧
    (Stub.versions ("Bill_" ++ "B1") stubMismatch.ledger.Log).length = 1 ∧
    queryBillByNo exampleConsts stubMismatch ["B1"] =
      .returned (.Success (.text (encodeBill (.mk "B2" "H1" "" "NewPublish" [])))) :=
  ⟨rfl, rfl, rfl⟩

/-- C6, amended: when `i` resolves to a record `b` and the version log of the
key `Bill_Prefix + b.BillInfoID`, the id the record carries, is iterated
without error, `queryBillByNo(i)` returns the bill with the fields of `b` and
a `History` of the length of that version log, whose `k`-th item carries the
transaction id of the `k`-th version in the order of the log, with the zero
`Bill` as snapshot for every version whose value is nil. -/
theorem queryBillByNo_history (c : Consts) (stub : Stub) (i : String) (b : Bill)
    (hresolves : getBill c stub i = (b, true))
    (hquery : stub.faults.historyQuery = false) (hnext : stub.faults.historyNext = []) :
    ∃ items : List HistoryItem,
      queryBillByNo c stub [i] =
        .returned (.Success (.text (encodeBill
          (.mk b.BillInfoID b.HoldrCmID b.WaitEndorseCmID b.State items)))) ∧
      items.length = (Stub.versions (c.Bill_Prefix ++ b.BillInfoID) stub.ledger.Log).length ∧
      ∀ (k : Nat) (v : KeyModification),
        (Stub.versions (c.Bill_Prefix ++ b.BillInfoID) stub.ledger.Log)[k]? = some v →
        ∃ item, items[k]? = some item ∧ item.TxId = v.TxId ∧
          (v.Value = .nil → item.Bill = Bill.zero) := by
  obtain ⟨items, hloop, hlen, hitems⟩ := queryBillByNoLoop_ok
    (Stub.versions (c.Bill_Prefix ++ b.BillInfoID) stub.ledger.Log) Bill.zero []
  refine ⟨items, ?_, hlen, hitems⟩
  simp only [queryBillByNo, hresolves, Stub.GetHistoryForKey, hquery, hnext, nextResults_nil,
    Bool.false_eq_true, if_false]
  rw [hloop]
  simp [jsonMarshal, Bill.setHistory_eq]

/-- Witness for C6, amended: the key of B1 has three versions, the second a
delete; the history returned has three items, and the second carries the
transaction id of the delete and the zero `Bill`. -/
theorem queryBillByNo_history_witness :
    ∃ items : List HistoryItem,
      queryBillByNo exampleConsts stubTombstone ["B1"] =
        .returned (.Success (.text (encodeBill (.mk "B1" "H1" "" "NewPublish" items)))) ∧
      items.length = 3 ∧
      ∃ item, items[1]? = some item ∧ item.TxId = "tx2" ∧ item.Bill = Bill.zero := by
  obtain ⟨items, hresp, hlen, hitems⟩ := queryBillByNo_history exampleConsts stubTombstone "B1"
    (.mk "B1" "H1" "" "NewPublish" []) rfl rfl rfl
  obtain ⟨item, hitem, htx, hzero⟩ := hitems 1 ⟨"tx2", .nil⟩ rfl
  exact ⟨items, hresp, hlen, item, hitem, htx, hzero rfl⟩

/-- C8 (no dangling index entries): in every ledger reachable from the empty
ledger by invocations of `issue`, whatever they answer and whichever of their
calls to the peer fail, every entry of the state whose key is the index key of
a holder and a bill id has a decodable primary record under
`Bill_Prefix + billId`: `getBill` resolves it, to a bill of that id. -/
theorem index_entries_resolve (c : Consts) (hc : c.WellFormed) (l : Ledger)
    (ids : List String) (hreach : Reach c anyFaults l ids)
    (kv : KV) (hkv : kv ∈ l.State) (holder billId : String)
    (hkey : Stub.CreateCompositeKey c.IndexName [holder, billId] = .ok kv.Key)
    (reader : Stub) (hledger : reader.ledger = l)
    (hread : c.Bill_Prefix ++ billId ∉ reader.faults.getState) :
    ∃ b : Bill, getBill c reader billId = (b, true) ∧ b.BillInfoID = billId := by
  have hinv := reach_inv hc hreach
  rcases hinv.entries kv hkv with ⟨b, hk, -, -⟩ | ⟨h', id', hk', -, b, hb, hg⟩
  · exact absurd hk (primary_ne_index hc hkey)
  · obtain ⟨-, e⟩ := indexKey_inj hkey hk'
    subst e
    rw [← hledger] at hg
    exact ⟨b, getBill_of_record hread hg, hb⟩

/-- Witness for C8: the ledger after B1 was issued for H1. -/
theorem index_entries_resolve_witness :
    ∃ b : Bill, getBill exampleConsts stubAfterB1 "B1" = (b, true) ∧ b.BillInfoID = "B1" :=
  index_entries_resolve exampleConsts ⟨'B', _, rfl, by decide⟩ stubAfterB1.ledger _
    (Reach.step stubEmpty [payloadB1] [] Reach.empty trivial)
    ⟨"\x00holder~bill\x00H1\x00B1\x00", indexMarker⟩ (List.Mem.head _) "H1" "B1" rfl
    stubAfterB1 rfl (by decide)

/-- C9, counterexample: a payload that carries a history item is accepted, and
the record `issue` stores carries that item; `getBill` returns it. -/
theorem history_is_persisted_counterexample :
    (issue exampleConsts stubEmpty [payloadWithHistory]).1 = .Success issueSuccessPayload ∧
    (getBill exampleConsts
      ⟨"tx2", (issue exampleConsts stubEmpty [payloadWithHistory]).2.ledger, Faults.none⟩
      "B9").1.History = [.mk "forged" Bill.zero] :=
  ⟨rfl, rfl⟩

/-- C9, amended: `issue` neither adds nor removes history: the primary record
it writes for an accepted payload is the encoding of the payload's bill in
state `NewPublish`, whose `History` is the one the payload carries (empty when
the payload carries none), and that is the `History` a later `getBill`
returns. -/
theorem issue_stores_payload_history (c : Consts) (hc : c.WellFormed) (stub stub' : Stub)
    (payload out : Bytes) (hissue : issue c stub [payload] = (.Success out, stub')) :
    getKV (c.Bill_Prefix ++ (jsonUnmarshal payload Bill.zero).1.BillInfoID) stub'.ledger.State =
      .text (encodeBill
        ((jsonUnmarshal payload Bill.zero).1.setState c.BillInfo_State_NewPublish)) ∧
    ((jsonUnmarshal payload Bill.zero).1.setState c.BillInfo_State_NewPublish).History =
      (jsonUnmarshal payload Bill.zero).1.History ∧
    ∀ (later : Stub) (b : Bill), later.ledger = stub'.ledger →
      getBill c later (jsonUnmarshal payload Bill.zero).1.BillInfoID = (b, true) →
      b.History = (jsonUnmarshal payload Bill.zero).1.History := by
  have h := issue_success_record hc hissue
  simp only [issuedBill, Bill.BillInfoID_setState] at h
  refine ⟨h, Bill.History_setState _ _, ?_⟩
  intro later b hl hg
  have h2 := getBill_true hg
  rw [hl, h, jsonUnmarshal_text_encodeBill] at h2
  rw [← (Prod.mk.inj h2).1]
  exact Bill.History_setState _ _

/-- Witness for C9, amended: B1 is issued without a history. -/
theorem issue_stores_payload_history_witness :
    getKV ("Bill_" ++ "B1") stubAfterB1.ledger.State =
      .text (encodeBill (.mk "B1" "H1" "" "NewPublish" [])) :=
  (issue_stores_payload_history exampleConsts ⟨'B', _, rfl, by decide⟩ stubEmpty
    (issue exampleConsts stubEmpty [payloadB1]).2 payloadB1 issueSuccessPayload rfl).1

/-- C10, the code at the failing input: the key of B1 has a complete first
version and a second version that names the id and the holder only. The
second snapshot keeps the pending endorsee and the state of the first
version, where decoding the second version alone leaves them empty; and with
another first version the second snapshot is another bill, though the second
versions are the same. -/
theorem snapshot_keeps_earlier_version_fields :
    queryBillByNo exampleConsts stubTwoVersions ["B1"] =
      .returned (.Success (.text (encodeBill (.mk "B1" "H2" "" ""
        [.mk "tx1" (.mk "B1" "H1" "E1" "EndorseWaitSign" []),
         .mk "tx2" (.mk "B1" "H2" "E1" "EndorseWaitSign" [])])))) ∧
    jsonUnmarshal recordB1partial Bill.zero = (.mk "B1" "H2" "" "" [], true) ∧
    queryBillByNo exampleConsts stubTwoVersionsOther ["B1"] =
      .returned (.Success (.text (encodeBill (.mk "B1" "H2" "" ""
        [.mk "tx1" (.mk "B1" "H1" "E7" "NewPublish" []),
         .mk "tx2" (.mk "B1" "H2" "E7" "NewPublish" [])])))) :=
  ⟨rfl, rfl, rfl⟩

end BillCC
